import Mathlib

/-!
Verification of the frida-il2cpp-toolkit core against its specification.

The definitions below are a shallow embedding of the JavaScript sources:
  - scripts/core/hook-manager.js        (target resolution, method filtering, hook installation)
  - scripts/class_hooker/ui/index.js    (class selection, hookMethods interval loop, onEnter/onLeave)
  - scripts/class_hooker/utils.js       (type classification cache, byte-array / collection readers)
  - scripts/class_hooker/formatters.js  (argument / return value formatting)

Machine integers are modelled as Nat/Int with explicit 2^32 / 2^64 wrapping where the
JavaScript performs NativePointer.toInt32 / toInt64 style conversions.  JavaScript
exceptions at memory-read boundaries are modelled with Option results; `none` plays the
role of a thrown-and-caught error.  Frida's process memory is an explicit `Mem` record of
read oracles, so that every decode is a pure function of the memory snapshot.
-/

namespace FridaToolkit

/-- Contiguous sublist test (`sub` occurs inside `l`). -/
def listIsInfix (sub : List Char) : List Char → Bool
  | [] => sub.isPrefixOf []
  | c :: rest => sub.isPrefixOf (c :: rest) || listIsInfix sub rest

/-- JS `String.prototype.includes`: contiguous substring test. -/
def strIncludes (s sub : String) : Bool :=
  listIsInfix sub.data s.data

/-- Suffix of a string after its last `.` (JS `s.split(".").pop()` for strings containing a dot,
and JS `s.replace(/^.*\./, "")` with greedy matching). -/
def afterLastDot (s : String) : String :=
  String.mk ((s.data.reverse.takeWhile (fun c => c ≠ '.')).reverse)

/-- JS `NativePointer.prototype.toString`: `0x` followed by lowercase hex digits. -/
def natToHex (n : Nat) : String :=
  "0x" ++ (Nat.toDigits 16 n).asString

/-- JS `NativePointer.prototype.toInt32`: low 32 bits, interpreted as signed. -/
def toInt32 (n : Nat) : Int :=
  let m : Nat := n % 2 ^ 32
  if m < 2 ^ 31 then (m : Int) else (m : Int) - 2 ^ 32

/-- JS `NativePointer.prototype.toUInt32`: low 32 bits, unsigned. -/
def toUInt32 (n : Nat) : Nat :=
  n % 2 ^ 32

/-- Signed reinterpretation of a 64-bit value (the BigInt branch of `formatInt64Value`). -/
def toInt64 (n : Nat) : Int :=
  if (n : Int) > 2 ^ 63 - 1 then (n : Int) - 2 ^ 64 else (n : Int)

/-- JS `String.prototype.replace` with a plain-string pattern: first occurrence only.
Used as `typeName.replace("[]", "")`. -/
def replaceFirstAux (pat repl : List Char) : List Char → List Char
  | [] => if pat = [] then repl else []
  | c :: rest =>
    if pat.isPrefixOf (c :: rest) then repl ++ (c :: rest).drop pat.length
    else c :: replaceFirstAux pat repl rest

def replaceFirst (s pat repl : String) : String :=
  String.mk (replaceFirstAux pat.data repl.data s.data)

/-- JS `s.slice(0, n)` (prefix of length at most `n`). -/
def strTake (s : String) (n : Nat) : String :=
  String.mk (s.data.take n)

/-- JS `s.slice(n)` (drop the first `n` characters). -/
def strDrop (s : String) (n : Nat) : String :=
  String.mk (s.data.drop n)

/-- JS `String.prototype.startsWith`. -/
def strStartsWith (s pre : String) : Bool :=
  pre.data.isPrefixOf s.data

/-- JS `String.prototype.endsWith`. -/
def strEndsWith (s suf : String) : Bool :=
  suf.data.reverse.isPrefixOf s.data.reverse

/-- JS `String.prototype.trim` (whitespace at both ends). -/
def strTrim (s : String) : String :=
  String.mk (((s.data.dropWhile Char.isWhitespace).reverse.dropWhile
    Char.isWhitespace).reverse)

/-- JS `String.prototype.toLowerCase` (ASCII case folding suffices for the type names
involved). -/
def strToLower (s : String) : String :=
  String.mk (s.data.map Char.toLower)

/-- utils.js `truncate`: `s.length <= maxLen ? s : s.slice(0, maxLen) + "..."`. -/
def truncate (s : String) (maxLen : Nat) : String :=
  if s.length ≤ maxLen then s else strTake s maxLen ++ "..."

/-- Models JS `(num/den).toFixed(1)` for `den` a power of two (the division is then exact in
binary floating point, and `toFixed` rounds to the nearest decimal, ties toward the larger). -/
def toFixed1 (num den : Nat) : String :=
  let scaled := (num * 10 + den / 2) / den
  toString (scaled / 10) ++ "." ++ toString (scaled % 10)

/-- utils.js `formatSize`. -/
def formatSize (bytes : Nat) : String :=
  if bytes < 1024 then toString bytes
  else if bytes < 1024 * 1024 then toFixed1 bytes 1024 ++ " KB"
  else toFixed1 bytes (1024 * 1024) ++ " MB"

/-! ## Class metadata model

`Klass` carries the metadata the decoder and resolver read from the IL2CPP host:
namespace, name, enum information and declared fields/methods. -/

/-- A field descriptor (`field` objects of frida-il2cpp-bridge).  `litValue` is the numeric
value of a static literal (enum member); `none` models a missing/throwing `.value` getter. -/
structure FieldD where
  name : String
  isStatic : Bool
  isLiteral : Bool
  typeName : String
  litValue : Option Int
deriving Repr, DecidableEq

/-- Result of reading `method.virtualAddress`:  the getter may throw, yield a JS
null/undefined, or yield a pointer (possibly NULL = 0). -/
inductive VAddr where
  | throws
  | missing
  | addr (n : Nat)
deriving Repr, DecidableEq

/-- A method descriptor.  `attachFails` models `Interceptor.attach` throwing for this
method even though its address is valid (host rejected the attach). -/
structure MethodD where
  name : String
  parameterCount : Nat
  virtualAddress : VAddr
  attachFails : Bool
deriving Repr, DecidableEq

/-- Class descriptor as read from the host.  `typeName` models `klass.type?.name` (used as
the enum-cache key); `baseTypeName` models `klass.baseType?.name`. -/
structure Klass where
  ns : String
  name : String
  isEnum : Bool
  baseTypeName : Option String
  typeName : Option String
  fields : List FieldD
  methods : List MethodD
deriving Repr, DecidableEq

/-! ## Target resolver (hook-manager.js `classMatches` / `findClass`,
identical logic in class_hooker/ui/index.js `classMatches` / `selectClass`). -/

/-- User-supplied target criteria.  Optional strings are `none` for JS null/undefined. -/
structure Target where
  assembly : Option String := none
  ns : Option String := none
  className : Option String := none
  fullName : Option String := none
  allowPartialMatch : Bool := false
  pickIndex : Int := 0
deriving Repr, DecidableEq

/-- hook-manager.js `classMatches`.  JS details preserved: in partial mode the class name is
matched against `target.className || ""` (so a null/empty className matches everything); in
exact mode `klass.name === target.className` is false when className is null; the namespace
check is skipped when `target.namespace` is falsy (null or empty string). -/
def classMatches (k : Klass) (t : Target) : Bool :=
  let nameMatch :=
    if Target.allowPartialMatch t then
      strIncludes k.name ((Target.className t).getD "")
    else
      match Target.className t with
      | some c => k.name == c
      | none => false
  if !nameMatch then false
  else
    match Target.ns t with
    | none => true
    | some ns0 =>
      if ns0 == "" then true
      else if Target.allowPartialMatch t then strIncludes k.ns ns0
      else k.ns == ns0

/-- An assembly of the host domain.  `classes = none` models `assembly.image.classes`
throwing (protected/stripped metadata) — the walk is skipped, not fatal. -/
structure Assembly where
  name : String
  classes : Option (List Klass)
deriving Repr, DecidableEq

/-- The assemblies findClass walks: a single named one (or failure) if `target.assembly`
is given, else all assemblies of the domain. -/
def assemblyPool (dom : List Assembly) (t : Target) : Option (List Assembly) :=
  match Target.assembly t with
  | some an =>
    match dom.find? (fun a => a.name == an) with
    | some a => some [a]
    | none => none
  | none => some dom

/-- The match list of findClass: every class of every readable assembly that satisfies
`classMatches`, in enumeration order.  Entries pair the assembly name with the class. -/
def collectMatches (asms : List Assembly) (t : Target) : List (String × Klass) :=
  match asms with
  | [] => []
  | a :: rest =>
    (match a.classes with
     | some cs => (cs.filter (fun k => classMatches k t)).map (fun k => (a.name, k))
     | none => []) ++ collectMatches rest t

/-- All classes of all readable assemblies (what the walk enumerates before filtering). -/
def allReadableClasses (asms : List Assembly) : List (String × Klass) :=
  match asms with
  | [] => []
  | a :: rest =>
    (match a.classes with
     | some cs => cs.map (fun k => (a.name, k))
     | none => []) ++ allReadableClasses rest

/-- hook-manager.js `findClass` (result value only; UI output ignored).
`pick = Math.min(Math.max(target.pickIndex || 0, 0), matches.length - 1)`:
`pickIndex || 0` is the identity on integers, and `Math.max(·, 0)` is `Int.toNat`. -/
def findClass (dom : List Assembly) (t : Target) : Option (String × Klass) :=
  match assemblyPool dom t with
  | none => none
  | some asms =>
    let ms := collectMatches asms t
    if ms.isEmpty then none
    else
      let pick : Nat := min (Target.pickIndex t).toNat (ms.length - 1)
      ms[pick]?

/-! ## Method filtering (hook-manager.js `safeVirtualAddress` / `buildMethodList`) -/

/-- hook-manager.js `safeVirtualAddress`: null when the getter throws, the address is JS
null/undefined, or the pointer `isNull()`. -/
def safeVirtualAddress (m : MethodD) : Option Nat :=
  match m.virtualAddress with
  | .throws => none
  | .missing => none
  | .addr n => if n = 0 then none else some n

/-- A user-supplied regex filter: either it compiles to a test predicate, or `new RegExp`
throws (`invalid`), in which case the catch block skips the filter. -/
inductive RegexSpec where
  | valid (test : String → Bool)
  | invalid

/-- Filter configuration of `buildMethodList`. -/
structure MFilters where
  methodNameContains : Option String := none
  methodRegex : Option RegexSpec := none
  exclude : List String := []

/-- The substring filter: fails only when the filter string is truthy (non-empty) and the
method name does not contain it. -/
def passContains (f : Option String) (nm : String) : Bool :=
  match f with
  | none => true
  | some s => if s == "" then true else strIncludes nm s

/-- The regex filter: an absent (or falsy) pattern or one whose compilation throws lets
every name pass. -/
def passRegex (f : Option RegexSpec) (nm : String) : Bool :=
  match f with
  | none => true
  | some .invalid => true
  | some (.valid test) => test nm

/-- Normalization of one exclude entry in `buildMethodList`: trim; drop empty; strip one
leading `.`; cut at the first `(`; keep the segment after the last `.`; trim again. -/
def normalizeExcludeEntry (val : String) : Option String :=
  let n0 := strTrim val
  if n0 == "" then none
  else
    let n1 := if strStartsWith n0 "." then strDrop n0 1 else n0
    let n2 := String.mk (n1.data.takeWhile (fun c => c ≠ '('))
    let n3 := if strIncludes n2 "." then afterLastDot n2 else n2
    some (strTrim n3)

/-- The normalized exclude set (`filter(Boolean)` drops entries that normalize to ""). -/
def excludeSet (exclude : List String) : List String :=
  (exclude.filterMap normalizeExcludeEntry).filter (fun s => s ≠ "")

/-- hook-manager.js `buildMethodList`: drops excluded names, applies the substring and
regex filters, and drops methods without a valid virtual address. -/
def buildMethodList (k : Klass) (f : MFilters) : List MethodD :=
  let ex := excludeSet f.exclude
  k.methods.filter (fun m =>
    if ex.length > 0 && ex.contains m.name then false
    else if !passContains f.methodNameContains m.name then false
    else if !passRegex f.methodRegex m.name then false
    else (safeVirtualAddress m).isSome)

/-! ## Hook installation

Two implementations exist: hook-manager.js `installHooks` (slices the list to `maxHooks`
up front, then installs sequentially with a setTimeout delay) and
class_hooker/ui/index.js `hookMethods` (a setInterval loop that stops once the number of
successful attaches reaches `maxHooks`).  The inter-install delay is wall-clock pacing and
is not modelled; only the counting behaviour is. -/

/-- The default `LIMITS.MAX_HOOKS`. -/
def LIMITS_MAX_HOOKS : Nat := 300

/-- JS `options.maxHooks || (LIMITS?.MAX_HOOKS || 300)`: an absent option falls back to
the default, and so does an explicit `0` (JS `||` treats 0 as falsy). -/
def effectiveMaxHooks (o : Option Nat) : Nat :=
  match o with
  | none => LIMITS_MAX_HOOKS
  | some m => if m = 0 then LIMITS_MAX_HOOKS else m

/-- hook-manager.js `installHook` outcome: true when the method has a usable address and
`Interceptor.attach` does not throw. -/
def installHookOk (m : MethodD) : Bool :=
  (safeVirtualAddress m).isSome && !m.attachFails

/-- The `installNext` recursion of `installHooks`, accumulating (installed, failed). -/
def installNext : List MethodD → Nat → Nat → Nat × Nat
  | [], installed, failed => (installed, failed)
  | m :: rest, installed, failed =>
    if installHookOk m then installNext rest (installed + 1) failed
    else installNext rest installed (failed + 1)

/-- hook-manager.js `installHooks` counting semantics:
`toInstall = methods.slice(0, maxHooks)`, then every element of `toInstall` is attempted
(the skipped tail is neither installed nor counted as failed). -/
def installHooksCounts (methods : List MethodD) (maxHooks : Option Nat) : Nat × Nat :=
  installNext (methods.take (effectiveMaxHooks maxHooks)) 0 0

/-- Number of methods left unattempted by `installHooks` (reported as skipped). -/
def installHooksSkipped (methods : List MethodD) (maxHooks : Option Nat) : Nat :=
  methods.length - (methods.take (effectiveMaxHooks maxHooks)).length

/-- class_hooker/ui/index.js `hookMethods`: `Interceptor.attach(method.virtualAddress, ...)`
throws when the address getter throws, the address is null/NULL, or the host rejects the
attach; the catch counts it as failed. -/
def hookAttachOk (m : MethodD) : Bool :=
  (safeVirtualAddress m).isSome && !m.attachFails

/-- The setInterval loop of `hookMethods`: each tick first checks
`idx >= methods.length || hooked >= maxHooks` and stops; otherwise it attempts the next
method, counting success/failure. -/
def hookLoop (maxHooks : Nat) : List MethodD → Nat → Nat → Nat × Nat
  | [], hooked, failed => (hooked, failed)
  | m :: rest, hooked, failed =>
    if maxHooks ≤ hooked then (hooked, failed)
    else if hookAttachOk m then hookLoop maxHooks rest (hooked + 1) failed
    else hookLoop maxHooks rest hooked (failed + 1)

/-- `hookMethods` counting semantics (none when hooking is disabled). -/
def hookMethodsCounts (enabled : Bool) (maxHooks : Nat) (methods : List MethodD) :
    Option (Nat × Nat) :=
  if !enabled then none else some (hookLoop maxHooks methods 0 0)

/-! ## Classification cache (utils.js `classTypeCache` / `isDictionaryClass` / `isListClass`)

The cache is a single Map from "namespace.name" to one tag string
("dictionary" | "list" | "other"), set on first query and never overwritten. -/

/-- Association-list lookup (JS `Map.get` after a `Map.has` check). -/
def alistGet {α : Type} (l : List (String × α)) (k : String) : Option α :=
  (l.find? (fun e => e.1 == k)).map (fun e => e.2)

/-- Insertion of a fresh key (the code only calls `set` after `has` returned false). -/
def alistIns {α : Type} (l : List (String × α)) (k : String) (v : α) : List (String × α) :=
  (k, v) :: l

/-- The classification cache state. -/
abbrev ClassTypeCache := List (String × String)

/-- utils.js cache key: namespace ++ "." ++ name. -/
def cacheKey (k : Klass) : String := k.ns ++ "." ++ k.name

/-- The direct (uncached) dictionary check of utils.js. -/
def isDictionaryDirect (k : Klass) : Bool :=
  k.ns == "System.Collections.Generic" && strStartsWith k.name "Dictionary`2"

/-- The direct (uncached) list check of utils.js. -/
def isListDirect (k : Klass) : Bool :=
  k.ns == "System.Collections.Generic" && strStartsWith k.name "List`1"

/-- utils.js `isDictionaryClass` with its cache: a hit answers `cached == "dictionary"`;
a miss computes the direct check and stores "dictionary" or "other". -/
def isDictionaryClassSt (k : Klass) (c : ClassTypeCache) : Bool × ClassTypeCache :=
  let key := cacheKey k
  match alistGet c key with
  | some t => (t == "dictionary", c)
  | none =>
    let r := isDictionaryDirect k
    (r, alistIns c key (if r then "dictionary" else "other"))

/-- utils.js `isListClass` with its cache: a hit answers `cached == "list"`;
a miss computes the direct check and stores "list" or "other". -/
def isListClassSt (k : Klass) (c : ClassTypeCache) : Bool × ClassTypeCache :=
  let key := cacheKey k
  match alistGet c key with
  | some t => (t == "list", c)
  | none =>
    let r := isListDirect k
    (r, alistIns c key (if r then "list" else "other"))

/-- utils.js `isMultimapClass` (stateless: no cache involved). -/
def isMultimapClass (k : Klass) : Bool :=
  strIncludes k.name "Multimap`2"

/-! ## Process memory model

All reads of the target process go through the host primitives; each oracle returns
`none` where the JS call would throw (or yield null where noted). -/

/-- Result of `new Il2Cpp.Object(ptr)` followed by `obj.class`: the constructor may throw,
the `class` getter may throw, or we get class metadata. -/
inductive ObjResult where
  | ctorThrow
  | classThrow
  | ok (k : Klass)

/-- A dynamically-typed JS value, as returned by `obj.field(name).value`. -/
inductive JSVal where
  | vnull
  | vptr (v : Nat)
  | vnum (n : Int)
  | vstr (s : String)
  | vbool (b : Bool)
  | varr (l : List Int)
deriving Repr, DecidableEq

/-- True when the value has an `isNull` method (NativePointer-like). -/
def JSVal.hasIsNull : JSVal → Bool
  | .vptr _ => true
  | _ => false

/-- `value.isNull()` for pointer-like values. -/
def JSVal.isPtrNull : JSVal → Bool
  | .vptr 0 => true
  | _ => false

/-- JS truthiness. -/
def JSVal.truthy : JSVal → Bool
  | .vnull => false
  | .vptr _ => true
  | .vnum n => n ≠ 0
  | .vstr s => s ≠ ""
  | .vbool b => b
  | .varr _ => true

/-- JS `String(value)` for the values above. -/
def jsStringOf : JSVal → String
  | .vnull => "null"
  | .vptr v => natToHex v
  | .vnum n => toString n
  | .vstr s => s
  | .vbool b => if b then "true" else "false"
  | .varr l => String.intercalate "," (l.map toString)

/-- A snapshot of the target process memory and metadata, as visible through the host's
read primitives.  `none` models a throwing read. -/
structure Mem where
  word : Nat → Option Nat
  byte : Nat → Option Nat
  s32 : Nat → Option Int
  strContent : Nat → Option String
  obj : Nat → ObjResult
  fieldVal : Nat → String → Option JSVal
  invokeToStr : Nat → Option Nat

/-! ### IL2CPP structure offsets (constants.js `OFFSETS` / `LIMITS`) -/

def OFFSET_ARRAY_MAX_LENGTH : Nat := 0x18
def OFFSET_LIST_SIZE : Nat := 0x18
def OFFSET_DICT_ENTRIES_PTR : Nat := 0x18
def OFFSET_DICT_COUNT : Nat := 0x20
def DICT_ENTRY_SIZE : Nat := 24
def OFFSET_DICT_ENTRY_KEY : Nat := 8
def OFFSET_DICT_ENTRY_VALUE : Nat := 16
def MAX_ARRAY_LENGTH : Nat := 1024 * 1024

/-! ### String reading (utils.js) -/

/-- utils.js `tryReadString`: null pointer or a throwing materialization gives null. -/
def tryReadString (mem : Mem) (p : Option Nat) : Option String :=
  match p with
  | none => none
  | some v => if v = 0 then none else mem.strContent v

/-- utils.js `safeString`: quoted truncated content, or the raw address on failure. -/
def safeString (mem : Mem) (p : Option Nat) (maxLen : Nat) : String :=
  match p with
  | none => "null"
  | some v =>
    if v = 0 then "null"
    else
      match mem.strContent v with
      | some s => "\"" ++ truncate s maxLen ++ "\""
      | none => natToHex v

/-- formatters.js `formatStringValue`: null for null pointers, the raw address when the
string cannot be materialized, otherwise the (possibly truncated) quoted content followed
by a ` len=N` annotation carrying the full length. -/
def formatStringValue (mem : Mem) (p : Option Nat) (maxLen : Nat) : String :=
  match p with
  | none => "null"
  | some v =>
    if v = 0 then "null"
    else
      match mem.strContent v with
      | none => natToHex v
      | some raw =>
        let truncated := if raw.length > maxLen then strTake raw maxLen ++ "..." else raw
        "\"" ++ truncated ++ "\" len=" ++ toString raw.length

/-! ### Byte-array summaries (utils.js `readByteArraySummary`)

The instrumented version additionally returns the list of addresses whose read was
attempted, so that "reads no memory beyond the length field" is a provable statement. -/

/-- The preview-byte read loop: reads `count` bytes starting at `base + i`, recording the
attempted addresses; a throwing read aborts with `none`. -/
def readBytesFrom (mem : Mem) (base : Nat) : Nat → Nat → Option (List Nat) × List Nat
  | _, 0 => (some [], [])
  | i, n + 1 =>
    match mem.byte (base + i) with
    | none => (none, [base + i])
    | some b =>
      let (rest, log) := readBytesFrom mem base (i + 1) n
      match rest with
      | none => (none, (base + i) :: log)
      | some bs => (some (b :: bs), (base + i) :: log)

/-- The interior sampling loop deciding "looks empty": positions are probed in order,
stopping at the first nonzero byte; a throwing read aborts with `none`. -/
def sampleCheck (mem : Mem) (dataStart : Nat) (length : Nat) :
    List Nat → Option Bool × List Nat
  | [] => (some true, [])
  | pos :: rest =>
    if pos < length then
      match mem.byte (dataStart + pos) with
      | none => (none, [dataStart + pos])
      | some b =>
        if b ≠ 0 then (some false, [dataStart + pos])
        else
          let (r, log) := sampleCheck mem dataStart length rest
          (r, (dataStart + pos) :: log)
    else sampleCheck mem dataStart length rest

/-- utils.js `readByteArraySummary`, instrumented with the list of read addresses.
The length field is a pointer-read at offset 0x18 whose value is `toInt32`-converted;
a negative length or one above `LIMITS.MAX_ARRAY_LENGTH` yields null with no further
reads.  `maxPreviewBytes || 20` handles the absent/zero preview budget. -/
def readByteArraySummaryLog (mem : Mem) (arrayPtr : Option Nat) (maxPreviewBytes : Nat) :
    Option String × List Nat :=
  match arrayPtr with
  | none => (none, [])
  | some p =>
    if p = 0 then (none, [])
    else
      let mpb := if maxPreviewBytes = 0 then 20 else maxPreviewBytes
      match mem.word (p + OFFSET_ARRAY_MAX_LENGTH) with
      | none => (none, [p + OFFSET_ARRAY_MAX_LENGTH])
      | some w =>
        let lenI := toInt32 w
        let log0 := [p + OFFSET_ARRAY_MAX_LENGTH]
        if lenI < 0 ∨ lenI > (MAX_ARRAY_LENGTH : Int) then (none, log0)
        else if lenI = 0 then (some "Byte[0]", log0)
        else
          let length := lenI.toNat
          if length > 1024 * 1024 then (some ("Byte[" ++ formatSize length ++ "]"), log0)
          else
            let dataStart := p + 0x20
            let previewLen := min length mpb
            let (bytesR, log1) := readBytesFrom mem dataStart 0 previewLen
            match bytesR with
            | none => (none, log0 ++ log1)
            | some bytes =>
              let allZeros := bytes.all (fun b => b = 0)
              let (azR, log2) :=
                if allZeros ∧ length > previewLen then
                  sampleCheck mem dataStart length
                    [length / 4, length / 2, 3 * length / 4, length - 1]
                else (some allZeros, [])
              match azR with
              | none => (none, log0 ++ log1 ++ log2)
              | some az =>
                if az then
                  (some ("Byte[" ++ formatSize length ++ "] [empty]"), log0 ++ log1 ++ log2)
                else
                  let preview := String.intercalate "," (bytes.map (fun b => toString b))
                  let suffix :=
                    if length > previewLen then "...+" ++ formatSize (length - previewLen)
                    else ""
                  (some ("Byte[" ++ formatSize length ++ "] [" ++ preview ++ suffix ++ "]"),
                    log0 ++ log1 ++ log2)

/-- utils.js `readByteArraySummary` (result only). -/
def readByteArraySummary (mem : Mem) (arrayPtr : Option Nat) (maxPreviewBytes : Nat) :
    Option String :=
  (readByteArraySummaryLog mem arrayPtr maxPreviewBytes).1

/-- utils.js `readListCount`. -/
def readListCount (mem : Mem) (p : Option Nat) : Option Int :=
  match p with
  | none => none
  | some v => if v = 0 then none else mem.s32 (v + OFFSET_LIST_SIZE)

/-- The dictionary entry loop of utils.js `readDictionarySummary`: entries with negative
hash codes are skipped; a throwing read aborts the whole summary. -/
def dictPairsLoop (mem : Mem) (itemsStart : Nat) : Nat → Nat → Option (List String)
  | _, 0 => some []
  | i, n + 1 =>
    let entryPtr := itemsStart + i * DICT_ENTRY_SIZE
    match mem.s32 entryPtr with
    | none => none
    | some hashCode =>
      if hashCode < 0 then dictPairsLoop mem itemsStart (i + 1) n
      else
        match mem.word (entryPtr + OFFSET_DICT_ENTRY_KEY) with
        | none => none
        | some keyPtr =>
          match mem.word (entryPtr + OFFSET_DICT_ENTRY_VALUE) with
          | none => none
          | some valPtr =>
            let keyStr := if keyPtr = 0 then "null" else safeString mem (some keyPtr) 50
            let valStr := if valPtr = 0 then "null" else safeString mem (some valPtr) 50
            match dictPairsLoop mem itemsStart (i + 1) n with
            | none => none
            | some rest => some ((keyStr ++ ":" ++ valStr) :: rest)

/-- utils.js `readDictionarySummary` (stateless: only memory reads). -/
def readDictionarySummary (mem : Mem) (p : Option Nat) (maxEntries : Nat) : Option String :=
  match p with
  | none => none
  | some v =>
    if v = 0 then none
    else
      match mem.word (v + OFFSET_DICT_ENTRIES_PTR) with
      | none => none
      | some entriesPtr =>
        match mem.s32 (v + OFFSET_DICT_COUNT) with
        | none => none
        | some count =>
          if count ≤ 0 ∨ entriesPtr = 0 then some ("Dict[" ++ toString count ++ "]")
          else
            let itemsStart := entriesPtr + 0x20
            let shown := min count.toNat maxEntries
            match dictPairsLoop mem itemsStart 0 shown with
            | none => none
            | some pairs =>
              if pairs.length > 0 then
                some ("Dict[" ++ toString count ++ "] \x7b" ++
                  String.intercalate ", " pairs ++ "\x7d")
              else some ("Dict[" ++ toString count ++ "]")

/-! ### Type-name predicates (formatters.js) -/

/-- Does the list start with `String` followed by end-of-string or `&`?  (The
`String(&|$)` part of the `isStringType` regex.) -/
def strSuffixOkay (l : List Char) : Bool :=
  "String".data.isPrefixOf l &&
    (match l.drop 6 with
     | [] => true
     | c :: _ => c == '&')

/-- Scan for an occurrence of `String(&|$)` preceded by start-of-string or `.`
(the `(^|\.)` part of the regex). -/
def isStringTypeCore (prev : Option Char) : List Char → Bool
  | [] => false
  | c :: rest =>
    ((match prev with
      | none => true
      | some pch => pch == '.') && strSuffixOkay (c :: rest))
      || isStringTypeCore (some c) rest

/-- utils.js `isStringType`: the regex test `/(^|\.)String(&|$)/.test(typeName)`. -/
def isStringType (tn : String) : Bool := isStringTypeCore none tn.data

/-- formatters.js `isByteArrayType`: lowercase name contains both "byte" and "[". -/
def isByteArrayType (tn : String) : Bool :=
  if tn = "" then false
  else
    let lower := strToLower tn
    strIncludes lower "byte" && strIncludes lower "["

/-- formatters.js `isArrayType`: name contains "[" and "]". -/
def isArrayType (tn : String) : Bool :=
  tn ≠ "" && strIncludes tn "[" && strIncludes tn "]"

/-- formatters.js `isByRefType`. -/
def isByRefType (tn : String) : Bool := strEndsWith tn "&"

/-- formatters.js `normalizeTypeName`: strip everything up to the last dot. -/
def normalizeTypeName (tn : String) : String :=
  if tn = "" then ""
  else if strIncludes tn "." then afterLastDot tn else tn

/-- formatters.js `isPrimitiveName`. -/
def isPrimitiveName (baseName : String) : Bool :=
  baseName == "Boolean" || baseName == "Int32" || baseName == "UInt32" ||
  baseName == "Int64" || baseName == "UInt64" || baseName == "Int16" ||
  baseName == "UInt16" || baseName == "SByte" || baseName == "Byte" ||
  baseName == "Char"

/-- formatters.js `isBufferFieldName`. -/
def isBufferFieldName (fieldName : String) : Bool :=
  if fieldName = "" then false
  else
    let lower := strToLower fieldName
    lower == "buffer" || lower == "_buffer" || lower == "data" || lower == "_data" ||
    strEndsWith lower "buffer" || strEndsWith lower "bytes"

/-! ### Primitive value rendering (formatters.js) -/

/-- Number-rendering options (`config.formatting.numbers`). -/
structure NumbersCfg where
  int64Format : Option String := none
deriving Repr, DecidableEq

/-- `numbers?.int64Format || "hex+dec"`. -/
def int64FormatOf (n : NumbersCfg) : String :=
  match n.int64Format with
  | none => "hex+dec"
  | some s => if s = "" then "hex+dec" else s

/-- formatters.js `formatInt64Value` (the BigInt branch; `BigInt` exists in the host). -/
def formatInt64Value (v : Nat) (numbers : NumbersCfg) (unsigned : Bool) : String :=
  let format := int64FormatOf numbers
  let hex := natToHex v
  let dec := toString (if unsigned then (v : Int) else toInt64 v)
  if format = "hex" then hex
  else if format = "dec" then dec
  else if hex = dec then hex
  else hex ++ "/" ++ dec

/-- formatters.js `formatPrimitivePtr`: interprets the raw argument register value. -/
def formatPrimitivePtr (p : Option Nat) (baseName : String) (numbers : NumbersCfg) :
    String :=
  match p with
  | none => "null"
  | some v =>
    match baseName with
    | "Boolean" => if toInt32 v ≠ 0 then "true" else "false"
    | "Int64" => formatInt64Value v numbers false
    | "UInt64" => formatInt64Value v numbers true
    | "Int32" => toString (toInt32 v)
    | "Int16" => toString (toInt32 v)
    | "SByte" => toString (toInt32 v)
    | "UInt32" => toString (toUInt32 v)
    | "UInt16" => toString (toUInt32 v)
    | "Byte" => toString (toUInt32 v)
    | "Char" => toString (toUInt32 v)
    | _ => natToHex v

/-- formatters.js `safeValueToString`. -/
def safeValueToString (value : JSVal) (maxLen : Nat) : String :=
  match value with
  | .vnull => "null"
  | .vptr v => if v = 0 then "null" else natToHex v
  | .varr l =>
    let len := l.length
    if len = 0 then "[]"
    else
      let preview := String.intercalate "," ((l.take (min 20 len)).map toString)
      if len > 20 then "[" ++ preview ++ "...+" ++ formatSize (len - 20) ++ "]"
      else "[" ++ preview ++ "]"
  | v =>
    let str := jsStringOf v
    if str.length > maxLen then strTake str maxLen ++ "..." else str

/-- formatters.js `formatPrimitiveValue` (dispatch on the dynamic type of `value`). -/
def formatPrimitiveValue (value : JSVal) (baseName : String) (numbers : NumbersCfg) :
    String :=
  match value with
  | .vnull => "null"
  | .vbool b => if b then "true" else "false"
  | .vnum n => toString n
  | .vstr s => s
  | .vptr v =>
    if baseName = "Int64" ∨ baseName = "UInt64" then natToHex v
    else formatPrimitivePtr (some v) baseName numbers
  | .varr l => String.intercalate "," (l.map toString)

/-! ### Enum rendering with its cache (formatters.js `enumCache` / `getEnumNameMap` /
`formatEnumValue`) and the preview-options cache (`getPreviewOptions`). -/

/-- The `type` argument of formatArg/formatReturn: a type reference whose `class`
property may be absent. -/
structure TypeRef where
  name : String
  klass : Option Klass

/-- JS `Map.set`: overwrite an existing key or append at the end. -/
def mapSet (m : List (String × String)) (key v : String) : List (String × String) :=
  if m.any (fun e => e.1 == key) then m.map (fun e => if e.1 == key then (key, v) else e)
  else m ++ [(key, v)]

/-- The literal-name map built by `getEnumNameMap` from an enum's static literal fields.
Both `map.set(String(val), name)` and the numeric re-insert store the same key for our
integer-valued literals. -/
def buildEnumMap (fields : List FieldD) : List (String × String) :=
  fields.foldl
    (fun m f =>
      if !(f.isStatic && f.isLiteral) then m
      else
        match f.litValue with
        | none => m
        | some v =>
          let m1 := mapSet m (toString v) f.name
          mapSet m1 (toString v) f.name)
    []

/-- The enum-cache key: `enumClass.type?.name || enumClass.name`. -/
def enumCacheKey (k : Klass) : String :=
  match k.typeName with
  | some t => if t = "" then k.name else t
  | none => k.name

/-- Formatting options derived from the configuration (`getPreviewOptions` result). -/
structure Opts where
  tryToString : Bool
  previewObjects : Bool
  maxObjectFields : Nat
  maxStringLength : Nat
  expandDictionaries : Bool
  maxDictEntries : Nat
  expandLists : Bool
  expandMultimap : Bool
  omitFields : List String
  omitFieldRegex : List (String → Bool)
  fieldAllowlistByType : List (String × List String)
  fieldDenylistByType : List (String × List String)
  numbers : NumbersCfg
  maxBufferPreviewBytes : Option Nat

/-- The relevant slice of the class_hooker configuration (config.js `CONFIG.formatting`).
`cfgId` stands for the JS object identity used by the `config === cachedPreviewConfig`
test of `getPreviewOptions`. -/
structure Config where
  cfgId : Nat := 0
  stringsMaxLength : Nat := 200
  tryToString : Bool := true
  showFields : Bool := true
  maxFields : Nat := 6
  omitFields : List String := []
  omitFieldPatterns : List RegexSpec := []
  fieldAllowlistByType : List (String × List String) := []
  fieldDenylistByType : List (String × List String) := []
  dictEnabled : Bool := true
  dictMaxEntries : Nat := 6
  listsEnabled : Bool := true
  multimapsEnabled : Bool := true
  numbers : NumbersCfg := {}

/-- formatters.js `buildRegexList`: patterns whose compilation throws are dropped. -/
def buildRegexList (patterns : List RegexSpec) : List (String → Bool) :=
  patterns.filterMap (fun r =>
    match r with
    | .valid t => some t
    | .invalid => none)

/-- The pure computation of `getPreviewOptions` (the object literal it builds). -/
def mkOpts (c : Config) : Opts where
  tryToString := c.tryToString
  previewObjects := c.showFields
  maxObjectFields := c.maxFields
  maxStringLength := c.stringsMaxLength
  expandDictionaries := c.dictEnabled
  maxDictEntries := c.dictMaxEntries
  expandLists := c.listsEnabled
  expandMultimap := c.multimapsEnabled
  omitFields := c.omitFields
  omitFieldRegex := buildRegexList c.omitFieldPatterns
  fieldAllowlistByType := c.fieldAllowlistByType
  fieldDenylistByType := c.fieldDenylistByType
  numbers := c.numbers
  maxBufferPreviewBytes := none

/-- The mutable module state of formatters.js + utils.js: the classification cache, the
enum-literal cache, and the memoized preview options (keyed by config identity). -/
structure St where
  classType : ClassTypeCache := []
  enums : List (String × List (String × String)) := []
  preview : Option (Nat × Opts) := none

/-- The empty state of a fresh session. -/
def emptySt : St := {}

/-- utils.js `isDictionaryClass` acting on the whole module state. -/
def isDictionaryClassS (k : Klass) (s : St) : Bool × St :=
  let (b, c) := isDictionaryClassSt k s.classType
  (b, { s with classType := c })

/-- utils.js `isListClass` acting on the whole module state. -/
def isListClassS (k : Klass) (s : St) : Bool × St :=
  let (b, c) := isListClassSt k s.classType
  (b, { s with classType := c })

/-- formatters.js `getEnumNameMap` with its cache. -/
def getEnumNameMapSt (k : Option Klass) (s : St) :
    Option (List (String × String)) × St :=
  match k with
  | none => (none, s)
  | some kc =>
    let key := enumCacheKey kc
    match alistGet s.enums key with
    | some m => (some m, s)
    | none =>
      let m := buildEnumMap kc.fields
      (some m, { s with enums := alistIns s.enums key m })

/-- Full name of an enum class (`enumClass.namespace ? ns.name : name`). -/
def enumFullName (k : Klass) : String :=
  if k.ns ≠ "" then k.ns ++ "." ++ k.name else k.name

/-- The literal-name lookup chain of `formatEnumValue`: try the decimal rendering of the
underlying value, then `toInt32`, then `toUInt32`; a JS-null pointer makes the chain throw
into its catch, leaving no name. -/
def enumLookupName (map : List (String × String)) (p : Option Nat) (baseName : String) :
    Option String :=
  match p with
  | none => none
  | some v =>
    let decVal :=
      if baseName = "Int64" ∨ baseName = "UInt64" then
        formatPrimitivePtr (some v) baseName ⟨some "dec"⟩
      else toString (toInt32 v)
    let n1 := alistGet map decVal
    let n2 :=
      match n1 with
      | some _ => n1
      | none => alistGet map (toString (toInt32 v))
    match n2 with
    | some _ => n2
    | none => alistGet map (toString (toUInt32 v))

/-- formatters.js `formatEnumValue`: null for non-enum types; otherwise renders the raw
underlying value and tries the literal-name lookup chain (decimal, toInt32, toUInt32).
A JS-null pointer makes the lookup chain throw into its catch, leaving no name. -/
def formatEnumValueSt (ty : Option TypeRef) (p : Option Nat) (numbers : NumbersCfg)
    (s : St) : Option String × St :=
  match ty with
  | none => (none, s)
  | some t =>
    match t.klass with
    | none => (none, s)
    | some ec =>
      if !ec.isEnum then (none, s)
      else
        let baseName0 := normalizeTypeName (ec.baseTypeName.getD "")
        let baseName := if baseName0 = "" then "Int32" else baseName0
        let raw := formatPrimitivePtr p baseName numbers
        let fullName := enumFullName ec
        let r := getEnumNameMapSt (some ec) s
        match r.1 with
        | none => (some (fullName ++ "(" ++ raw ++ ")"), r.2)
        | some map =>
          if map.length = 0 then (some (fullName ++ "(" ++ raw ++ ")"), r.2)
          else
            (enumLookupName map p baseName |>.elim
              (some (fullName ++ "(" ++ raw ++ ")"))
              (fun nm => some (fullName ++ "." ++ nm ++ "(" ++ raw ++ ")")), r.2)

/-- formatters.js `getPreviewOptions` with its config-identity memoization. -/
def getPreviewOptionsSt (c : Config) (s : St) : Opts × St :=
  match s.preview with
  | some (cid, o) =>
    if cid == c.cfgId then (o, s)
    else
      let o2 := mkOpts c
      (o2, { s with preview := some (c.cfgId, o2) })
  | none =>
    let o2 := mkOpts c
    (o2, { s with preview := some (c.cfgId, o2) })

/-! ### Object previews (formatters.js `shouldIncludeField` / `summarizeFieldValue` /
`readMultimapSummary` / `tryObjectToString` / `previewObject`). -/

/-- The deny-side filters of `shouldIncludeField` (denylist, omit list, omit patterns). -/
def fieldPassesDenyFilters (fullName fieldName : String) (opts : Opts) : Bool :=
  if ((alistGet opts.fieldDenylistByType fullName).getD []).contains fieldName then false
  else if opts.omitFields.contains fieldName then false
  else if opts.omitFieldRegex.any (fun re => re fieldName) then false
  else true

/-- formatters.js `shouldIncludeField`: a non-empty per-type allowlist is decisive;
otherwise the deny-side filters apply. -/
def shouldIncludeField (fullName fieldName : String) (opts : Opts) : Bool :=
  if fieldName = "" then false
  else
    match alistGet opts.fieldAllowlistByType fullName with
    | some al =>
      if al.length > 0 then al.contains fieldName
      else fieldPassesDenyFilters fullName fieldName opts
    | none => fieldPassesDenyFilters fullName fieldName opts

/-- utils.js `tryObjectToString`: invoke the managed `ToString()` inside a failure
boundary; any failure yields null. -/
def tryObjectToString (mem : Mem) (p : Option Nat) (maxLen : Nat) : Option String :=
  match p with
  | none => none
  | some v =>
    if v = 0 then none
    else
      match mem.obj v with
      | .ok k =>
        match k.methods.find? (fun m => m.name == "ToString" && m.parameterCount == 0) with
        | none => none
        | some _ =>
          match mem.invokeToStr v with
          | none => none
          | some res =>
            if res = 0 then none
            else
              match mem.strContent res with
              | none => none
              | some str => some (if maxLen = 0 then str else truncate str maxLen)
      | _ => none

/-- `maxPreviewBytes` as used in summarizeFieldValue: `opts.maxBufferPreviewBytes || 20`. -/
def effPreviewBytes (o : Option Nat) : Nat :=
  match o with
  | none => 20
  | some n => if n = 0 then 20 else n

/-- The Array-of-bytes branch of `summarizeFieldValue`. -/
def byteArrJs (l : List Int) : String :=
  let len := l.length
  if len = 0 then "Byte[0]"
  else
    let sample := l.take (min 100 len)
    if sample.all (fun b => b = 0) && len > 100 then
      "Byte[" ++ formatSize len ++ "] [empty]"
    else
      let preview := String.intercalate "," ((l.take 20).map toString)
      if len > 20 then
        "Byte[" ++ formatSize len ++ "] [" ++ preview ++ "...+" ++ formatSize (len - 20) ++ "]"
      else "Byte[" ++ toString len ++ "] [" ++ preview ++ "]"

/-- The per-field loop of utils.js `readMultimapSummary`: for each instance field whose
value is an accessible object, check (under the expand flags) the dictionary and list
classifications, returning the first summary that materializes. -/
def multimapFieldLoop (mem : Mem) (mapPtr : Nat) (opts : Opts) :
    List FieldD → St → Option String × St
  | [], s => (none, s)
  | f :: rest, s =>
    if f.isStatic then multimapFieldLoop mem mapPtr opts rest s
    else
      match mem.fieldVal mapPtr f.name with
      | some (.vptr vp) =>
        match mem.obj vp with
        | .ok fk =>
          let (dictHit, s1) :=
            if opts.expandDictionaries then isDictionaryClassS fk s else (false, s)
          match (if dictHit then readDictionarySummary mem (some vp) opts.maxDictEntries
                 else none) with
          | some summary => (some ("Multimap " ++ summary), s1)
          | none =>
            let (listHit, s2) :=
              if opts.expandLists then isListClassS fk s1 else (false, s1)
            match (if listHit then readListCount mem (some vp) else none) with
            | some count => (some ("Multimap List[" ++ toString count ++ "]"), s2)
            | none => multimapFieldLoop mem mapPtr opts rest s2
        | _ => multimapFieldLoop mem mapPtr opts rest s
      | _ => multimapFieldLoop mem mapPtr opts rest s

/-- utils.js `readMultimapSummary`. -/
def readMultimapSummarySt (mem : Mem) (p : Option Nat) (opts : Opts) (s : St) :
    Option String × St :=
  match p with
  | none => (none, s)
  | some v =>
    if v = 0 then (none, s)
    else
      match mem.obj v with
      | .ok k => multimapFieldLoop mem v opts k.fields s
      | _ => (none, s)

/-- formatters.js `summarizeFieldValue`.  The result is `none` exactly when the JS code
would throw out of the function (caught by the caller's per-field catch). -/
def summarizeFieldValueSt (mem : Mem) (value : JSVal) (typeName : String) (opts : Opts)
    (s : St) : Option String × St :=
  match value with
  | .vnull => (some "null", s)
  | _ =>
    if value.hasIsNull && value.isPtrNull then (some "null", s)
    else if isByteArrayType typeName then
      (some (match value with
        | .vptr vp =>
          (readByteArraySummary mem (some vp)
            (effPreviewBytes opts.maxBufferPreviewBytes)).getD "Byte[]"
        | .varr l => byteArrJs l
        | _ => "Byte[?]"), s)
    else if isArrayType typeName then
      (some (match value with
        | .varr l => replaceFirst typeName "[]" "" ++ "[" ++ toString l.length ++ "]"
        | .vptr vp =>
          (match mem.word (vp + 0x18) with
           | some w =>
             let len := toInt32 w
             if 0 ≤ len ∧ len < 1000000 then
               replaceFirst typeName "[]" "" ++ "[" ++ toString len ++ "]"
             else typeName
           | none => typeName)
        | _ => typeName), s)
    else if isStringType typeName then
      (match value with
       | .vptr vp => (some (formatStringValue mem (some vp) opts.maxStringLength), s)
       | v => if v.truthy then (none, s) else (some "null", s))
    else if isPrimitiveName (normalizeTypeName typeName) then
      (some (formatPrimitiveValue value (normalizeTypeName typeName) opts.numbers), s)
    else
      match value with
      | .vptr vp =>
        match mem.obj vp with
        | .ok k =>
          let (bD, s1) := if opts.expandDictionaries then isDictionaryClassS k s
                          else (false, s)
          if bD then
            (some ((readDictionarySummary mem (some vp) opts.maxDictEntries).getD "Dict"),
              s1)
          else if opts.expandMultimap && isMultimapClass k then
            let (r, s2) := readMultimapSummarySt mem (some vp) opts s1
            (some (r.getD "Multimap"), s2)
          else
            let (bL, s2) := if opts.expandLists then isListClassS k s1 else (false, s1)
            if bL then
              (some (match readListCount mem (some vp) with
                     | some c => "List[" ++ toString c ++ "]"
                     | none => "List"), s2)
            else (some (safeValueToString value 100), s2)
        | _ => (some (safeValueToString value 100), s)
      | _ => (some (safeValueToString value 100), s)

/-- The field-preview loop of `previewObject` (per-field failures are skipped; the
accumulated entries stop growing at `maxObjectFields`). -/
def previewFieldLoop (mem : Mem) (objPtr : Nat) (fullName : String) (opts : Opts) :
    List FieldD → List String → St → List String × St
  | [], acc, s => (acc, s)
  | f :: rest, acc, s =>
    if f.isStatic then previewFieldLoop mem objPtr fullName opts rest acc s
    else if opts.maxObjectFields ≤ acc.length then (acc, s)
    else if !shouldIncludeField fullName f.name opts then
      previewFieldLoop mem objPtr fullName opts rest acc s
    else
      let typeName := f.typeName
      if isByteArrayType typeName && isBufferFieldName f.name then
        previewFieldLoop mem objPtr fullName opts rest (acc ++ [f.name ++ "=[buffer]"]) s
      else if isArrayType typeName then
        let entry :=
          match mem.fieldVal objPtr f.name with
          | none => f.name ++ "=" ++ typeName
          | some v =>
            match v with
            | .vptr vp =>
              if vp = 0 then f.name ++ "=null"
              else
                match mem.word (vp + 0x18) with
                | none => f.name ++ "=" ++ typeName
                | some w =>
                  let len := toInt32 w
                  if 0 ≤ len ∧ len < 10000000 then
                    f.name ++ "=" ++ replaceFirst typeName "[]" "" ++ "[" ++
                      toString len ++ "]"
                  else f.name ++ "=" ++ typeName
            | _ => f.name ++ "=null"
        previewFieldLoop mem objPtr fullName opts rest (acc ++ [entry]) s
      else
        match mem.fieldVal objPtr f.name with
        | none => previewFieldLoop mem objPtr fullName opts rest acc s
        | some v =>
          let (summ, s1) := summarizeFieldValueSt mem v typeName opts s
          match summ with
          | none => previewFieldLoop mem objPtr fullName opts rest acc s1
          | some txt =>
            previewFieldLoop mem objPtr fullName opts rest (acc ++ [f.name ++ "=" ++ txt]) s1

/-- formatters.js `previewObject`. -/
def previewObjectSt (mem : Mem) (p : Option Nat) (opts : Opts) (s : St) : String × St :=
  match p with
  | none => ("null", s)
  | some v =>
    if v = 0 then ("null", s)
    else
      match mem.obj v with
      | .ctorThrow => (natToHex v, s)
      | .classThrow => ("<inaccessible>@" ++ natToHex v, s)
      | .ok k =>
        let fullName := if k.ns ≠ "" then k.ns ++ "." ++ k.name else k.name
        if isStringType fullName then
          (fullName ++ "@" ++ natToHex v ++ " " ++
            formatStringValue mem (some v) opts.maxStringLength, s)
        else
          let (bD, s1) := if opts.expandDictionaries then isDictionaryClassS k s
                          else (false, s)
          if bD then
            ((readDictionarySummary mem (some v) opts.maxDictEntries).getD
              (k.name ++ "@" ++ natToHex v), s1)
          else if opts.expandMultimap && isMultimapClass k then
            let (r, s2) := readMultimapSummarySt mem (some v) opts s1
            (r.getD (k.name ++ "@" ++ natToHex v), s2)
          else
            let (bL, s2) := if opts.expandLists then isListClassS k s1 else (false, s1)
            if bL then
              ((match readListCount mem (some v) with
                | some c => "List[" ++ toString c ++ "]"
                | none => k.name ++ "@" ++ natToHex v), s2)
            else
              let toStringValue :=
                if opts.tryToString then tryObjectToString mem (some v) opts.maxStringLength
                else none
              if !opts.previewObjects then
                ((match toStringValue with
                  | some ts => fullName ++ "@" ++ natToHex v ++ " \"" ++ ts ++ "\""
                  | none => fullName ++ "@" ++ natToHex v), s2)
              else
                let (fieldsL, s3) := previewFieldLoop mem v fullName opts k.fields [] s2
                let preview :=
                  if fieldsL.length > 0 then
                    " \x7b" ++ String.intercalate ", " fieldsL ++ "\x7d"
                  else ""
                ((match toStringValue with
                  | some ts => fullName ++ "@" ++ natToHex v ++ " \"" ++ ts ++ "\"" ++ preview
                  | none => fullName ++ "@" ++ natToHex v ++ preview), s3)

/-- formatters.js `formatByRefValue`. -/
def formatByRefValue (p : Option Nat) (tn : String) : String :=
  match p with
  | none => "null"
  | some v => if v = 0 then "null" else tn ++ "@" ++ natToHex v ++ " (ref)"

/-- formatters.js `formatArg`: the decode dispatch for method arguments.  The argument
pointer is `none` for a JS null/undefined and `some 0` for a NULL NativePointer. -/
def formatArgSt (mem : Mem) (config : Config) (argPtr : Option Nat) (typeName : String)
    (maxStrLen : Nat) (ty : Option TypeRef) (s : St) : String × St :=
  match argPtr with
  | none => ("null", s)
  | some v =>
    if isByRefType typeName then
      (if v = 0 then "null" else formatByRefValue (some v) typeName, s)
    else
      let (enumVal, s1) := formatEnumValueSt ty (some v) config.numbers s
      match enumVal with
      | some e => (e, s1)
      | none =>
        if isByteArrayType typeName then
          ((readByteArraySummary mem (some v) 20).getD "Byte[]", s1)
        else if isArrayType typeName then
          ((match mem.word (v + 0x18) with
            | some w =>
              let len := toInt32 w
              if 0 ≤ len ∧ len < 10000000 then
                replaceFirst typeName "[]" "" ++ "[" ++ toString len ++ "]"
              else typeName
            | none => typeName), s1)
        else if isStringType typeName then
          ((if v = 0 then "null" else formatStringValue mem (some v) maxStrLen), s1)
        else
          let baseName := normalizeTypeName typeName
          if isPrimitiveName baseName then
            (formatPrimitivePtr (some v) baseName config.numbers, s1)
          else if v = 0 then ("null", s1)
          else
            let (opts, s2) := getPreviewOptionsSt config s1
            previewObjectSt mem (some v) opts s2

/-- formatters.js `formatReturn`: like formatArg but with a Void short-circuit and
without the by-ref branch. -/
def formatReturnSt (mem : Mem) (config : Config) (retval : Option Nat) (typeName : String)
    (maxStrLen : Nat) (ty : Option TypeRef) (s : St) : String × St :=
  if typeName = "Void" then ("void", s)
  else
    match retval with
    | none => ("null", s)
    | some v =>
      let (enumVal, s1) := formatEnumValueSt ty (some v) config.numbers s
      match enumVal with
      | some e => (e, s1)
      | none =>
        if isByteArrayType typeName then
          ((readByteArraySummary mem (some v) 20).getD "Byte[]", s1)
        else if isArrayType typeName then
          ((match mem.word (v + 0x18) with
            | some w =>
              let len := toInt32 w
              if 0 ≤ len ∧ len < 10000000 then
                replaceFirst typeName "[]" "" ++ "[" ++ toString len ++ "]"
              else typeName
            | none => typeName), s1)
        else if isStringType typeName then
          ((if v = 0 then "null" else formatStringValue mem (some v) maxStrLen), s1)
        else
          let baseName := normalizeTypeName typeName
          if isPrimitiveName baseName then
            (formatPrimitivePtr (some v) baseName config.numbers, s1)
          else if v = 0 then ("null", s1)
          else
            let (opts, s2) := getPreviewOptionsSt config s1
            previewObjectSt mem (some v) opts s2

/-! ## hookMethods onEnter/onLeave context handling (class_hooker/ui/index.js)

The per-invocation context `this.__ctx` is written at the end of the argument-formatting
part of onEnter; if onEnter threw before that point the context is absent and onLeave
must be a guarded no-op. -/

/-- The `httpContext` object filled by `analyzeNewRequest`. -/
structure HttpCtxData where
  method : Option String := none
  path : Option String := none
  url : Option String := none
  body : Option String := none

/-- The per-invocation context stored as `this.__ctx` by onEnter. -/
structure HookCtx where
  isNewRequest : Bool
  httpContext : HttpCtxData

/-- Observable UI actions emitted by the onLeave callback. -/
inductive UIEvent where
  | httpBlock (method path url body headers : Option String)
  | hookReturn (className methodName value : String)
  | httpResponse (summary : String)

/-- The http-analysis plugin module (an external collaborator of the hooked callback):
`extractRequestSummary(retval).headersBlock` and `extractResponseSummary(retval)`,
both pure in the memory snapshot. -/
structure HttpAnalysisExt where
  extractRequestSummary : Option Nat → Option String
  extractResponseSummary : Option Nat → Option String

/-- The CallApi/SendAsync response block at the end of onLeave. -/
def apiResponseEvents (ha : HttpAnalysisExt) (httpEnabled : Bool) (methodName : String)
    (retval : Option Nat) : List UIEvent :=
  if httpEnabled && (strIncludes methodName "CallApi" || strIncludes methodName "SendAsync")
  then
    match ha.extractResponseSummary retval with
    | some summary => [UIEvent.httpResponse summary]
    | none => []
  else []

/-- The onLeave callback of `hookMethods`: `if (!this.__ctx) return;` guards everything;
with a context, either the HTTP block or (when return logging is on) the formatted return
value is emitted, followed by the CallApi/SendAsync response block.  `formatReturn` is
called without a `type` argument in this code path. -/
def onLeaveModel (mem : Mem) (config : Config) (ha : HttpAnalysisExt)
    (loggingReturn httpEnabled : Bool) (classFullName methodName returnTypeName : String)
    (ctx : Option HookCtx) (retval : Option Nat) (s : St) : List UIEvent × St :=
  match ctx with
  | none => ([], s)
  | some c =>
    let (evs1, s1) :=
      if c.isNewRequest then
        ([UIEvent.httpBlock c.httpContext.method c.httpContext.path c.httpContext.url
            c.httpContext.body (ha.extractRequestSummary retval)], s)
      else if loggingReturn then
        let (ret, s1) := formatReturnSt mem config retval returnTypeName
          config.stringsMaxLength none s
        ([UIEvent.hookReturn classFullName methodName ret], s1)
      else ([], s)
    (evs1 ++ apiResponseEvents ha httpEnabled methodName retval, s1)

/-! ## State-extension machinery for the idempotence proof

A second decode run replays the first run's cache queries.  `stExt s u` says every cache
entry visible in `s` is still visible (unchanged) in `u`; since entries are written once
and never overwritten, each run's final state extends every intermediate state, and a
computation replayed from an extending state returns the same value without moving the
state. -/

/-- Association-list extension: every present entry is preserved. -/
def alExt {α : Type} (a b : List (String × α)) : Prop :=
  ∀ k v, alistGet a k = some v → alistGet b k = some v

/-- Module-state extension: classification cache, enum cache and the preview-options slot
all preserve their entries. -/
def stExt (s u : St) : Prop :=
  alExt s.classType u.classType ∧ alExt s.enums u.enums ∧
  (∀ e, s.preview = some e → u.preview = some e)

/-- Well-formedness of the preview-options slot relative to the configuration in use:
if occupied, it holds exactly that configuration's computed options. -/
def wfPreview (c : Config) (s : St) : Prop :=
  ∀ e, s.preview = some e → e = (c.cfgId, mkOpts c)

/-! ## Concrete sample inputs used by witnesses and counterexamples -/

/-- A memory snapshot in which every read throws and every object is inaccessible. -/
def memNone : Mem where
  word := fun _ => none
  byte := fun _ => none
  s32 := fun _ => none
  strContent := fun _ => none
  obj := fun _ => .ctorThrow
  fieldVal := fun _ _ => none
  invokeToStr := fun _ => none

/-- The default formatting configuration (config.js defaults). -/
def cfg0 : Config := {}

/-- A hookable method whose attach succeeds. -/
def mOk : MethodD where
  name := "M"
  parameterCount := 0
  virtualAddress := .addr 4096
  attachFails := false

/-- Five hookable methods (Scenario E). -/
def fiveMethods : List MethodD := List.replicate 5 mOk

/-- Scenario B classes: both names contain "Sample". -/
def klassSampleV2 : Klass where
  ns := "Game"
  name := "SampleV2"
  isEnum := false
  baseTypeName := none
  typeName := none
  fields := []
  methods := []

def klassLegacySample : Klass where
  ns := "Game"
  name := "LegacySample"
  isEnum := false
  baseTypeName := none
  typeName := none
  fields := []
  methods := []

/-- Scenario B domain: one assembly exposing the two classes in enumeration order. -/
def domB : List Assembly := [⟨"Asm", some [klassSampleV2, klassLegacySample]⟩]

/-- Scenario B target: partial match on "Sample", pickIndex 1. -/
def targetB : Target where
  className := some "Sample"
  allowPartialMatch := true
  pickIndex := 1

/-- A `List`1` class in the generic-collections namespace (C5 failing input). -/
def klassList1 : Klass where
  ns := "System.Collections.Generic"
  name := "List`1"
  isEnum := false
  baseTypeName := none
  typeName := none
  fields := []
  methods := []

/-- Memory with a byte-array whose length field reads back −1 (0xFFFFFFFF). -/
def memLenNeg : Mem :=
  { memNone with word := fun a =>
      (if a = 4096 + OFFSET_ARRAY_MAX_LENGTH then some 0xFFFFFFFF else none) }

/-- Memory holding the 6-character string "abcdef" at address 100. -/
def memStr6 : Mem :=
  { memNone with strContent := fun a => if a = 100 then some "abcdef" else none }

/-- Memory with a `List`1` object at 4096 whose size field reads 7. -/
def memList : Mem :=
  { memNone with
      obj := fun a => (if a = 4096 then .ok klassList1 else .ctorThrow),
      s32 := fun a => (if a = 4096 + OFFSET_LIST_SIZE then some 7 else none) }

/-- A method with no virtual address (abstract/unresolved). -/
def mNoAddr : MethodD where
  name := "Abstract"
  parameterCount := 0
  virtualAddress := .missing
  attachFails := false

/-- A class with one hookable method and one address-less method (C7 witness input). -/
def klassC7 : Klass where
  ns := "Game"
  name := "Engine"
  isEnum := false
  baseTypeName := none
  typeName := none
  fields := []
  methods := [mOk, mNoAddr]

/-- C7 witness filters: an exclude entry that normalizes to a plain method name. -/
def filtersC7 : MFilters where
  exclude := ["Game.Engine.Update(int)"]

/-! # Theorems -/

theorem listIsInfix_nil (l : List Char) : listIsInfix [] l = true := by
  cases l with
  | nil => rfl
  | cons c rest => simp [listIsInfix, List.isPrefixOf]

theorem strIncludes_empty (s : String) : strIncludes s "" = true := by
  simpa [strIncludes] using listIsInfix_nil s.data

theorem classMatches_true_of_empty_className (t : Target) (k : Klass)
    (hp : Target.allowPartialMatch t = true)
    (hc : Target.className t = none ∨ Target.className t = some "")
    (hns : Target.ns t = none ∨ Target.ns t = some "" ∨
      (∃ ns0, Target.ns t = some ns0 ∧ strIncludes k.ns ns0 = true)) :
    classMatches k t = true := by
  have hname : strIncludes k.name ((Target.className t).getD "") = true := by
    rcases hc with h | h <;> simp [h, strIncludes_empty]
  rcases hns with h | h | ⟨ns0, h, hincl⟩
  · simp [classMatches, hp, hname, h]
  · simp [classMatches, hp, hname, h]
  · simp [classMatches, hp, hname, h, hincl]

theorem collectMatches_eq_all (t : Target) (h : ∀ k : Klass, classMatches k t = true)
    (asms : List Assembly) : collectMatches asms t = allReadableClasses asms := by
  induction asms with
  | nil => rfl
  | cons a rest ih =>
    cases hc : a.classes with
    | none => simp [collectMatches, allReadableClasses, hc, ih]
    | some cs =>
      have : cs.filter (fun k => classMatches k t) = cs :=
        List.filter_eq_self.mpr (fun x _ => h x)
      simp [collectMatches, allReadableClasses, hc, this, ih]

/-- C10: with `allowPartial` true and a null or empty `className`, the class-name test of
`classMatches` degenerates to `includes("")` and accepts every class (provided the
namespace criterion passes), so resolution with no namespace criterion matches every
class of all searched readable assemblies. -/
theorem c10_empty_partial_matches_all (t : Target)
    (hp : Target.allowPartialMatch t = true)
    (hc : Target.className t = none ∨ Target.className t = some "") :
    (∀ k : Klass,
      (Target.ns t = none ∨ Target.ns t = some "" ∨
        (∃ ns0, Target.ns t = some ns0 ∧ strIncludes k.ns ns0 = true)) →
      classMatches k t = true) ∧
    (Target.ns t = none →
      ∀ asms : List Assembly, collectMatches asms t = allReadableClasses asms) := by
  constructor
  · intro k hns
    exact classMatches_true_of_empty_className t k hp hc hns
  · intro hns asms
    exact collectMatches_eq_all t
      (fun k => classMatches_true_of_empty_className t k hp hc (Or.inl hns)) asms

/-- C10 witness: with `className = ""`, partial mode and no namespace criterion, every
class matches and the match list is the full enumeration. -/
theorem c10_witness :
    classMatches klassSampleV2 { className := some "", allowPartialMatch := true } = true ∧
    collectMatches domB { className := some "", allowPartialMatch := true } =
      allReadableClasses domB :=
  ⟨(c10_empty_partial_matches_all _ rfl (Or.inr rfl)).1 klassSampleV2 (Or.inl rfl),
   (c10_empty_partial_matches_all _ rfl (Or.inr rfl)).2 rfl domB⟩

/-- C3: with N > 1 matches, `findClass` deterministically returns the match-list entry at
index `min(max(pickIndex, 0), N−1)` in enumeration order; in Scenario B the classes
"SampleV2" and "LegacySample" both match "Sample" in partial mode and `pickIndex = 1`
selects "LegacySample". -/
theorem c3_pick_clamped :
    (∀ (dom : List Assembly) (t : Target) (asms : List Assembly),
      assemblyPool dom t = some asms →
      1 < (collectMatches asms t).length →
      findClass dom t =
        (collectMatches asms t)[min (Target.pickIndex t).toNat
          ((collectMatches asms t).length - 1)]? ∧
      (findClass dom t).isSome = true) ∧
    collectMatches domB targetB = [("Asm", klassSampleV2), ("Asm", klassLegacySample)] ∧
    findClass domB targetB = some ("Asm", klassLegacySample) := by
  refine ⟨?_, by decide, by decide⟩
  intro dom t asms hpool hN
  have hne : (collectMatches asms t).isEmpty = false := by
    cases hie : (collectMatches asms t).isEmpty
    · rfl
    · rw [List.isEmpty_iff] at hie
      rw [hie] at hN
      simp at hN
  have hlt : min (Target.pickIndex t).toNat ((collectMatches asms t).length - 1) <
      (collectMatches asms t).length := by
    have h1 : (collectMatches asms t).length - 1 < (collectMatches asms t).length := by
      omega
    exact lt_of_le_of_lt (min_le_right _ _) h1
  constructor
  · simp [findClass, hpool, hne]
  · simp [findClass, hpool, hne]
    rw [List.getElem?_eq_getElem hlt]
    rfl

/-- C3 witness: the general clamping statement applied to Scenario B (two matches). -/
theorem c3_witness :
    findClass domB targetB =
      (collectMatches [⟨"Asm", some [klassSampleV2, klassLegacySample]⟩] targetB)[min
        (Target.pickIndex targetB).toNat
        ((collectMatches [⟨"Asm", some [klassSampleV2, klassLegacySample]⟩] targetB).length
          - 1)]? :=
  (c3_pick_clamped.1 domB targetB _ rfl (by decide)).1

/-- C7: every method surviving `buildMethodList` has a usable virtual address, and no
surviving method's name equals a (normalized) exclude-set entry — for every class and
every combination of substring, regex and exclude filters. -/
theorem c7_buildMethodList_excludes (k : Klass) (f : MFilters) (m : MethodD)
    (hm : m ∈ buildMethodList k f) :
    (safeVirtualAddress m).isSome = true ∧ m.name ∉ excludeSet f.exclude := by
  unfold buildMethodList at hm
  rw [List.mem_filter] at hm
  obtain ⟨-, hpred⟩ := hm
  simp at hpred
  refine ⟨hpred.2.2.2, ?_⟩
  rcases hpred.1 with h | h
  · rw [h]
    exact List.not_mem_nil m.name
  · exact h

/-- C7 witness: in a class with a hookable method `M` and an address-less method, with an
exclude entry normalizing to "Update", the surviving method `M` has an address and is not
in the exclude set. -/
theorem c7_witness :
    (safeVirtualAddress mOk).isSome = true ∧ mOk.name ∉ excludeSet filtersC7.exclude :=
  c7_buildMethodList_excludes klassC7 filtersC7 mOk (by decide)

theorem installNext_fst_le (l : List MethodD) :
    ∀ a b : Nat, (installNext l a b).1 ≤ a + l.length := by
  induction l with
  | nil => intro a b; simp [installNext]
  | cons m rest ih =>
    intro a b
    cases h : installHookOk m
    · rw [installNext, h]
      simp only [Bool.false_eq_true, if_false]
      calc (installNext rest a (b + 1)).1 ≤ a + rest.length := ih a (b + 1)
        _ ≤ a + (m :: rest).length := by simp
    · rw [installNext, h]
      simp only [if_true]
      calc (installNext rest (a + 1) b).1 ≤ (a + 1) + rest.length := ih (a + 1) b
        _ = a + (m :: rest).length := by simp; omega

theorem hookLoop_fst_le (mh : Nat) (l : List MethodD) :
    ∀ h f : Nat, h ≤ mh → (hookLoop mh l h f).1 ≤ mh := by
  induction l with
  | nil => intro h f hh; simpa [hookLoop] using hh
  | cons m rest ih =>
    intro h f hh
    rw [hookLoop]
    by_cases hstop : mh ≤ h
    · simpa [hstop] using hh
    · rw [if_neg hstop]
      cases hok : hookAttachOk m
      · simp only [Bool.false_eq_true, if_false]
        exact ih h (f + 1) hh
      · simp only [if_true]
        exact ih (h + 1) f (by omega)

/-- C1 counterexample: with `maxHooks = 0` (a legal "every maxHooks value" instance),
hook-manager `installHooks` falls back to the default cap (JS `\x7c\x7c` treats 0 as
falsy) and installs 1 hook for a 1-method list — more than `maxHooks`. -/
theorem c1_counterexample :
    (installHooksCounts [mOk] (some 0)).1 = 1 ∧
    ¬((installHooksCounts [mOk] (some 0)).1 ≤ 0) := by decide

/-- C1 (amended): for every method list and every `maxHooks ≥ 1`, hook-manager
`installHooks` installs at most `maxHooks` hooks (0/absent selects the default cap 300);
the interval-based `hookMethods` honours any `maxHooks` (including 0); and Scenario E
holds: 5 methods with `maxHooks = 3` gives exactly 3 installed, 0 failed, 2 skipped. -/
theorem c1_amended_cap :
    (∀ (ms : List MethodD) (mh : Nat), 1 ≤ mh →
      (installHooksCounts ms (some mh)).1 ≤ mh) ∧
    (∀ (ms : List MethodD) (mh : Nat), (hookLoop mh ms 0 0).1 ≤ mh) ∧
    (installHooksCounts fiveMethods (some 3) = (3, 0) ∧
     installHooksSkipped fiveMethods (some 3) = 2 ∧
     hookLoop 3 fiveMethods 0 0 = (3, 0)) := by
  refine ⟨?_, ?_, by decide, by decide, by decide⟩
  · intro ms mh hmh
    have heff : effectiveMaxHooks (some mh) = mh := by
      show (if mh = 0 then LIMITS_MAX_HOOKS else mh) = mh
      rw [if_neg (by omega)]
    unfold installHooksCounts
    rw [heff]
    have h1 := installNext_fst_le (ms.take mh) 0 0
    have h2 : (ms.take mh).length ≤ mh := by
      rw [List.length_take]
      exact Nat.min_le_left _ _
    omega
  · intro ms mh
    exact hookLoop_fst_le mh ms 0 0 (Nat.zero_le mh)

/-- C1 witness: the amended cap applied at Scenario E's inputs. -/
theorem c1_witness : (installHooksCounts fiveMethods (some 3)).1 ≤ 3 :=
  c1_amended_cap.1 fiveMethods 3 (by decide)

/-- C5: the single-tag classification cache is poisoned by query order: for the class
`System.Collections.Generic.List`1`, calling `isDictionaryClass` first stores the tag
"other", after which `isListClass` answers false from the cache even though the direct
uncached namespace+name check classifies the class as list-like. -/
theorem c5_cache_poisoning :
    isListDirect klassList1 = true ∧
    (isDictionaryClassSt klassList1 []).1 = false ∧
    (isListClassSt klassList1 ((isDictionaryClassSt klassList1 []).2)).1 = false ∧
    (isListClassSt klassList1 ((isDictionaryClassSt klassList1 []).2)).1 ≠
      isListDirect klassList1 := by decide

/-- C6 counterexample: for the 6-character string "abcdef" with configured maximum 2,
`formatStringValue` returns `"ab..." len=6` (13 characters), which is neither the bare
prefix-plus-ellipsis nor within max + marker length (5). -/
theorem c6_counterexample :
    formatStringValue memStr6 (some 100) 2 = "\"ab...\" len=6" ∧
    formatStringValue memStr6 (some 100) 2 ≠ "ab..." ∧
    ¬((formatStringValue memStr6 (some 100) 2).length ≤ 2 + "...".length) := by decide

/-- C6 (amended): when the content is longer than the configured maximum, the decoded
output embeds the prefix plus the "..." marker — that truncated portion has length at
most max + 3 — wrapped in quotes and followed by a ` len=N` annotation; `truncate`
itself always stays within max + marker length. -/
theorem c6_amended_truncation (mem : Mem) (p : Nat) (raw : String) (maxLen : Nat)
    (hp : p ≠ 0) (hraw : mem.strContent p = some raw) (hlong : maxLen < raw.length) :
    formatStringValue mem (some p) maxLen =
      "\"" ++ (strTake raw maxLen ++ "...") ++ "\" len=" ++ toString raw.length ∧
    (strTake raw maxLen ++ "...").length ≤ maxLen + 3 ∧
    ∀ (s : String) (n : Nat), (truncate s n).length ≤ n + 3 := by
  have h3 : ("..." : String).length = 3 := rfl
  have htake : ∀ (s : String) (n : Nat), (strTake s n).length = min n s.length := by
    intro s n
    show (s.data.take n).length = min n s.data.length
    exact List.length_take n s.data
  have htr : ∀ (s : String) (n : Nat), (truncate s n).length ≤ n + 3 := by
    intro s n
    unfold truncate
    by_cases h : s.length ≤ n
    · rw [if_pos h]
      omega
    · rw [if_neg h, String.length_append, htake, h3]
      omega
  refine ⟨?_, ?_, htr⟩
  · simp only [formatStringValue]
    rw [if_neg hp, hraw]
    simp only [gt_iff_lt, hlong, if_true]
  · rw [String.length_append, htake, h3]
    omega

/-- C6 witness: the amended statement at the concrete counterexample input. -/
theorem c6_witness :
    formatStringValue memStr6 (some 100) 2 =
      "\"" ++ (strTake "abcdef" 2 ++ "...") ++ "\" len=" ++ toString "abcdef".length :=
  (c6_amended_truncation memStr6 100 "abcdef" 2 (by decide) (by decide) (by decide)).1

/-- C9: the onLeave callback of `hookMethods` is a guarded no-op whenever the entry
callback did not store the per-invocation context: it emits no UI event and leaves the
module state unchanged, for every memory snapshot, configuration and return value. -/
theorem c9_onLeave_guarded_noop (mem : Mem) (config : Config) (ha : HttpAnalysisExt)
    (loggingReturn httpEnabled : Bool) (classFullName methodName returnTypeName : String)
    (retval : Option Nat) (s : St) :
    onLeaveModel mem config ha loggingReturn httpEnabled classFullName methodName
      returnTypeName none retval s = ([], s) := rfl

/-- C2: for every byte-array pointer whose length field reads as negative or above the
1 MiB cap, `readByteArraySummary` answers null after reading only the length field (its
read log is exactly the length-field address), and `formatArg` on a byte-array-shaped
type name then returns the bare "Byte[]" fallback with the module state untouched. -/
theorem c2_corrupt_byte_array_length (mem : Mem) (p w : Nat) (mpb : Nat)
    (hp : p ≠ 0)
    (hw : mem.word (p + OFFSET_ARRAY_MAX_LENGTH) = some w)
    (hbad : toInt32 w < 0 ∨ (MAX_ARRAY_LENGTH : Int) < toInt32 w) :
    readByteArraySummaryLog mem (some p) mpb = (none, [p + OFFSET_ARRAY_MAX_LENGTH]) ∧
    (∀ (config : Config) (tn : String) (maxLen : Nat) (s : St),
      isByRefType tn = false → isByteArrayType tn = true →
      formatArgSt mem config (some p) tn maxLen none s = ("Byte[]", s)) := by
  have hbad' : toInt32 w < 0 ∨ toInt32 w > (MAX_ARRAY_LENGTH : Int) := hbad
  have hlog : readByteArraySummaryLog mem (some p) mpb =
      (none, [p + OFFSET_ARRAY_MAX_LENGTH]) := by
    simp only [readByteArraySummaryLog]
    rw [if_neg hp, hw]
    simp only [hbad', if_true]
  refine ⟨hlog, ?_⟩
  intro config tn maxLen s hbr hba
  have hsum : readByteArraySummary mem (some p) 20 = none := by
    unfold readByteArraySummary
    have hlog20 : readByteArraySummaryLog mem (some p) 20 =
        (none, [p + OFFSET_ARRAY_MAX_LENGTH]) := by
      simp only [readByteArraySummaryLog]
      rw [if_neg hp, hw]
      simp only [hbad', if_true]
    rw [hlog20]
  simp only [formatArgSt]
  rw [hbr]
  simp only [Bool.false_eq_true, if_false, formatEnumValueSt]
  rw [hba]
  simp [hsum]

/-- C2 witness: a byte array at 4096 whose length field holds 0xFFFFFFFF (declared length
−1) decodes to the bare fallback, with only the length-field address read. -/
theorem c2_witness :
    readByteArraySummaryLog memLenNeg (some 4096) 20 =
      (none, [4096 + OFFSET_ARRAY_MAX_LENGTH]) ∧
    formatArgSt memLenNeg cfg0 (some 4096) "System.Byte[]" 200 none emptySt =
      ("Byte[]", emptySt) :=
  ⟨(c2_corrupt_byte_array_length memLenNeg 4096 0xFFFFFFFF 20 (by decide) (by decide)
      (by decide)).1,
   (c2_corrupt_byte_array_length memLenNeg 4096 0xFFFFFFFF 20 (by decide) (by decide)
      (by decide)).2 cfg0 "System.Byte[]" 200 emptySt (by decide) (by decide)⟩

/-- C4 counterexample: a zero-valued pointer with the byte-array type name decodes to
"Byte[]", not the Null representation — the null short-circuit does not precede the
byte-array branch for NULL (as opposed to JS-null) pointers. -/
theorem c4_counterexample :
    (formatArgSt memNone cfg0 (some 0) "System.Byte[]" 200 none emptySt).1 = "Byte[]" ∧
    (formatArgSt memNone cfg0 (some 0) "System.Byte[]" 200 none emptySt).1 ≠ "null" := by
  decide

/-- C4 (amended): a JS-null/undefined argument decodes to Null before any dispatch, for
every type name; a zero-valued NativePointer decodes to Null on the by-ref, string and
plain-object branches, but the byte-array branch fires first and returns the bare
"Byte[]" fallback for a NULL pointer. -/
theorem c4_null_dispatch :
    (∀ (mem : Mem) (config : Config) (tn : String) (maxLen : Nat) (ty : Option TypeRef)
      (s : St), formatArgSt mem config none tn maxLen ty s = ("null", s)) ∧
    (∀ (mem : Mem) (config : Config) (tn : String) (maxLen : Nat) (s : St),
      isByRefType tn = true →
      formatArgSt mem config (some 0) tn maxLen none s = ("null", s)) ∧
    (∀ (mem : Mem) (config : Config) (tn : String) (maxLen : Nat) (s : St),
      isByRefType tn = false → isByteArrayType tn = false → isArrayType tn = false →
      isStringType tn = true →
      formatArgSt mem config (some 0) tn maxLen none s = ("null", s)) ∧
    (∀ (mem : Mem) (config : Config) (tn : String) (maxLen : Nat) (s : St),
      isByRefType tn = false → isByteArrayType tn = false → isArrayType tn = false →
      isStringType tn = false → isPrimitiveName (normalizeTypeName tn) = false →
      formatArgSt mem config (some 0) tn maxLen none s = ("null", s)) ∧
    (∀ (mem : Mem) (config : Config) (tn : String) (maxLen : Nat) (s : St),
      isByRefType tn = false → isByteArrayType tn = true →
      formatArgSt mem config (some 0) tn maxLen none s = ("Byte[]", s)) := by
  refine ⟨fun mem config tn maxLen ty s => rfl, ?_, ?_, ?_, ?_⟩
  · intro mem config tn maxLen s hbr
    simp [formatArgSt, hbr]
  · intro mem config tn maxLen s hbr hba har hstr
    simp [formatArgSt, hbr, hba, har, hstr, formatEnumValueSt]
  · intro mem config tn maxLen s hbr hba har hstr hprim
    simp [formatArgSt, hbr, hba, har, hstr, hprim, formatEnumValueSt]
  · intro mem config tn maxLen s hbr hba
    simp [formatArgSt, hbr, hba, formatEnumValueSt, readByteArraySummary,
      readByteArraySummaryLog]

/-- C4 witness: the amended dispatch facts at concrete type names ("System.String" for
the string branch, "Game.Player" for the object branch, "System.Byte[]" for the
byte-array branch) against the all-throwing memory. -/
theorem c4_witness :
    formatArgSt memNone cfg0 none "System.Byte[]" 200 none emptySt = ("null", emptySt) ∧
    formatArgSt memNone cfg0 (some 0) "System.String" 200 none emptySt =
      ("null", emptySt) ∧
    formatArgSt memNone cfg0 (some 0) "Game.Player" 200 none emptySt =
      ("null", emptySt) ∧
    formatArgSt memNone cfg0 (some 0) "System.Byte[]" 200 none emptySt =
      ("Byte[]", emptySt) :=
  ⟨c4_null_dispatch.1 memNone cfg0 "System.Byte[]" 200 none emptySt,
   c4_null_dispatch.2.2.1 memNone cfg0 "System.String" 200 emptySt (by decide) (by decide)
     (by decide) (by decide),
   c4_null_dispatch.2.2.2.1 memNone cfg0 "Game.Player" 200 emptySt (by decide) (by decide)
     (by decide) (by decide) (by decide),
   c4_null_dispatch.2.2.2.2 memNone cfg0 "System.Byte[]" 200 emptySt (by decide)
     (by decide)⟩

theorem alistGet_ins_self {α : Type} (l : List (String × α)) (k : String) (v : α) :
    alistGet (alistIns l k v) k = some v := by
  simp [alistGet, alistIns, List.find?]

theorem alistGet_ins_preserve {α : Type} (l : List (String × α)) (k k' : String)
    (v : α) (v' : α) (hmiss : alistGet l k = none) (h : alistGet l k' = some v') :
    alistGet (alistIns l k v) k' = some v' := by
  have hne : (k == k') = false := by
    rw [beq_eq_false_iff_ne]
    intro he
    rw [← he] at h
    rw [hmiss] at h
    cases h
  simp only [alistIns, alistGet, List.find?, hne]
  exact h

theorem stExt_refl (s : St) : stExt s s :=
  ⟨fun _ _ h => h, fun _ _ h => h, fun _ h => h⟩

theorem stExt_trans {a b c : St} (h1 : stExt a b) (h2 : stExt b c) : stExt a c :=
  ⟨fun k v h => h2.1 k v (h1.1 k v h),
   fun k v h => h2.2.1 k v (h1.2.1 k v h),
   fun e h => h2.2.2 e (h1.2.2 e h)⟩

theorem isDictionaryClassS_ext (k : Klass) (s : St) :
    stExt s (isDictionaryClassS k s).2 ∧
    (isDictionaryClassS k s).2.enums = s.enums ∧
    (isDictionaryClassS k s).2.preview = s.preview := by
  cases hmiss : alistGet s.classType (cacheKey k) with
  | some t =>
    simp only [isDictionaryClassS, isDictionaryClassSt, hmiss]
    exact ⟨stExt_refl s, by trivial, by trivial⟩
  | none =>
    simp only [isDictionaryClassS, isDictionaryClassSt, hmiss]
    refine ⟨⟨?_, fun _ _ h => h, fun _ h => h⟩, by trivial, by trivial⟩
    intro k' v' h
    exact alistGet_ins_preserve _ _ _ _ _ hmiss h

theorem isDictionaryClassS_replay (k : Klass) (s u : St) (b : Bool) (s' : St)
    (hrun : isDictionaryClassS k s = (b, s')) (hext : stExt s' u) :
    isDictionaryClassS k u = (b, u) := by
  cases hmiss : alistGet s.classType (cacheKey k) with
  | some t =>
    simp only [isDictionaryClassS, isDictionaryClassSt, hmiss, Prod.mk.injEq] at hrun
    obtain ⟨hb, hs⟩ := hrun
    have hs' : alistGet s'.classType (cacheKey k) = some t := by
      rw [← hs]
      exact hmiss
    have hu := hext.1 _ _ hs'
    simp only [isDictionaryClassS, isDictionaryClassSt, hu, Prod.mk.injEq]
    exact ⟨hb, by trivial⟩
  | none =>
    simp only [isDictionaryClassS, isDictionaryClassSt, hmiss, Prod.mk.injEq] at hrun
    obtain ⟨hb, hs⟩ := hrun
    have hs' : alistGet s'.classType (cacheKey k) =
        some (if isDictionaryDirect k then "dictionary" else "other") := by
      rw [← hs]
      exact alistGet_ins_self _ _ _
    have hu := hext.1 _ _ hs'
    simp only [isDictionaryClassS, isDictionaryClassSt, hu, Prod.mk.injEq]
    refine ⟨?_, by trivial⟩
    rw [← hb]
    cases hd : isDictionaryDirect k <;> simp [hd]

theorem isListClassS_ext (k : Klass) (s : St) :
    stExt s (isListClassS k s).2 ∧
    (isListClassS k s).2.enums = s.enums ∧
    (isListClassS k s).2.preview = s.preview := by
  cases hmiss : alistGet s.classType (cacheKey k) with
  | some t =>
    simp only [isListClassS, isListClassSt, hmiss]
    exact ⟨stExt_refl s, by trivial, by trivial⟩
  | none =>
    simp only [isListClassS, isListClassSt, hmiss]
    refine ⟨⟨?_, fun _ _ h => h, fun _ h => h⟩, by trivial, by trivial⟩
    intro k' v' h
    exact alistGet_ins_preserve _ _ _ _ _ hmiss h

theorem isListClassS_replay (k : Klass) (s u : St) (b : Bool) (s' : St)
    (hrun : isListClassS k s = (b, s')) (hext : stExt s' u) :
    isListClassS k u = (b, u) := by
  cases hmiss : alistGet s.classType (cacheKey k) with
  | some t =>
    simp only [isListClassS, isListClassSt, hmiss, Prod.mk.injEq] at hrun
    obtain ⟨hb, hs⟩ := hrun
    have hs' : alistGet s'.classType (cacheKey k) = some t := by
      rw [← hs]
      exact hmiss
    have hu := hext.1 _ _ hs'
    simp only [isListClassS, isListClassSt, hu, Prod.mk.injEq]
    exact ⟨hb, by trivial⟩
  | none =>
    simp only [isListClassS, isListClassSt, hmiss, Prod.mk.injEq] at hrun
    obtain ⟨hb, hs⟩ := hrun
    have hs' : alistGet s'.classType (cacheKey k) =
        some (if isListDirect k then "list" else "other") := by
      rw [← hs]
      exact alistGet_ins_self _ _ _
    have hu := hext.1 _ _ hs'
    simp only [isListClassS, isListClassSt, hu, Prod.mk.injEq]
    refine ⟨?_, by trivial⟩
    rw [← hb]
    cases hd : isListDirect k <;> simp [hd]

theorem getEnumNameMapSt_ext (k : Option Klass) (s : St) :
    stExt s (getEnumNameMapSt k s).2 ∧
    (getEnumNameMapSt k s).2.classType = s.classType ∧
    (getEnumNameMapSt k s).2.preview = s.preview := by
  cases k with
  | none => exact ⟨stExt_refl s, by trivial, by trivial⟩
  | some kc =>
    cases hmiss : alistGet s.enums (enumCacheKey kc) with
    | some m =>
      simp only [getEnumNameMapSt, hmiss]
      exact ⟨stExt_refl s, by trivial, by trivial⟩
    | none =>
      simp only [getEnumNameMapSt, hmiss]
      refine ⟨⟨fun _ _ h => h, ?_, fun _ h => h⟩, by trivial, by trivial⟩
      intro k' v' h
      exact alistGet_ins_preserve _ _ _ _ _ hmiss h

theorem getEnumNameMapSt_replay (k : Option Klass) (s u : St)
    (v : Option (List (String × String))) (s' : St)
    (hrun : getEnumNameMapSt k s = (v, s')) (hext : stExt s' u) :
    getEnumNameMapSt k u = (v, u) := by
  cases k with
  | none =>
    simp only [getEnumNameMapSt, Prod.mk.injEq] at hrun
    simp only [getEnumNameMapSt, Prod.mk.injEq]
    exact ⟨hrun.1, by trivial⟩
  | some kc =>
    cases hmiss : alistGet s.enums (enumCacheKey kc) with
    | some m =>
      simp only [getEnumNameMapSt, hmiss, Prod.mk.injEq] at hrun
      obtain ⟨hv, hs⟩ := hrun
      have hs' : alistGet s'.enums (enumCacheKey kc) = some m := by
        rw [← hs]
        exact hmiss
      have hu := hext.2.1 _ _ hs'
      simp only [getEnumNameMapSt, hu, Prod.mk.injEq]
      exact ⟨hv, by trivial⟩
    | none =>
      simp only [getEnumNameMapSt, hmiss, Prod.mk.injEq] at hrun
      obtain ⟨hv, hs⟩ := hrun
      have hs' : alistGet s'.enums (enumCacheKey kc) = some (buildEnumMap kc.fields) := by
        rw [← hs]
        exact alistGet_ins_self _ _ _
      have hu := hext.2.1 _ _ hs'
      simp only [getEnumNameMapSt, hu, Prod.mk.injEq]
      exact ⟨hv, by trivial⟩

theorem formatEnumValueSt_ext (ty : Option TypeRef) (p : Option Nat)
    (numbers : NumbersCfg) (s : St) :
    stExt s (formatEnumValueSt ty p numbers s).2 ∧
    (formatEnumValueSt ty p numbers s).2.classType = s.classType ∧
    (formatEnumValueSt ty p numbers s).2.preview = s.preview := by
  cases ty with
  | none => exact ⟨stExt_refl s, rfl, rfl⟩
  | some t =>
    cases hk : t.klass with
    | none =>
      simp only [formatEnumValueSt, hk]
      exact ⟨stExt_refl s, by trivial, by trivial⟩
    | some ec =>
      cases he : ec.isEnum with
      | false =>
        simp only [formatEnumValueSt, hk, he, Bool.not_false, if_true]
        exact ⟨stExt_refl s, by trivial, by trivial⟩
      | true =>
        cases hg : getEnumNameMapSt (some ec) s with
        | mk mOpt s1 =>
          have hx := getEnumNameMapSt_ext (some ec) s
          rw [hg] at hx
          simp only [formatEnumValueSt, hk, he, hg, Bool.not_true, Bool.false_eq_true,
            if_false]
          cases mOpt with
          | none => exact hx
          | some map =>
            by_cases hlen : map.length = 0
            · simp only [hlen, if_true]
              exact hx
            · simp only [hlen, if_false]
              exact hx

theorem formatEnumValueSt_replay (ty : Option TypeRef) (p : Option Nat)
    (numbers : NumbersCfg) (s u : St) (v : Option String) (s' : St)
    (hrun : formatEnumValueSt ty p numbers s = (v, s')) (hext : stExt s' u) :
    formatEnumValueSt ty p numbers u = (v, u) := by
  cases ty with
  | none =>
    simp only [formatEnumValueSt, Prod.mk.injEq] at hrun ⊢
    exact ⟨hrun.1, by trivial⟩
  | some t =>
    cases hk : t.klass with
    | none =>
      simp only [formatEnumValueSt, hk, Prod.mk.injEq] at hrun ⊢
      exact ⟨hrun.1, by trivial⟩
    | some ec =>
      cases he : ec.isEnum with
      | false =>
        simp only [formatEnumValueSt, hk, he, Bool.not_false, if_true,
          Prod.mk.injEq] at hrun ⊢
        exact ⟨hrun.1, by trivial⟩
      | true =>
        cases hg : getEnumNameMapSt (some ec) s with
        | mk mOpt s1 =>
          simp only [formatEnumValueSt, hk, he, hg, Bool.not_true, Bool.false_eq_true,
            if_false] at hrun
          have hs1 : s1 = s' := by
            cases mOpt with
            | none =>
              simp only [Prod.mk.injEq] at hrun
              exact hrun.2
            | some map =>
              by_cases hlen : map.length = 0
              · simp only [hlen, if_true, Prod.mk.injEq] at hrun
                exact hrun.2
              · simp only [hlen, if_false, Prod.mk.injEq] at hrun
                exact hrun.2
          rw [hs1] at hg
          have hrep := getEnumNameMapSt_replay (some ec) s u mOpt s' hg hext
          simp only [formatEnumValueSt, hk, he, hrep, Bool.not_true, Bool.false_eq_true,
            if_false]
          cases mOpt with
          | none =>
            simp only [Prod.mk.injEq] at hrun ⊢
            exact ⟨hrun.1, by trivial⟩
          | some map =>
            by_cases hlen : map.length = 0
            · simp only [hlen, if_true, Prod.mk.injEq] at hrun ⊢
              exact ⟨hrun.1, by trivial⟩
            · simp only [hlen, if_false, Prod.mk.injEq] at hrun ⊢
              exact ⟨hrun.1, by trivial⟩

theorem gpo_normal (c : Config) (s : St) (hwf : wfPreview c s) :
    getPreviewOptionsSt c s =
      (mkOpts c, { s with preview := some (c.cfgId, mkOpts c) }) := by
  cases hs : s.preview with
  | none => simp [getPreviewOptionsSt, hs]
  | some e =>
    have he := hwf e hs
    have hseq : ({ s with preview := some (c.cfgId, mkOpts c) } : St) = s := by
      cases s with
      | mk ct en pv =>
        simp only at hs
        simp only [hs, he]
    rw [hseq]
    simp only [getPreviewOptionsSt, hs, he, beq_self_eq_true, if_true]

theorem gpo_ext (c : Config) (s : St) (hwf : wfPreview c s) :
    stExt s (getPreviewOptionsSt c s).2 := by
  rw [gpo_normal c s hwf]
  refine ⟨fun _ _ h => h, fun _ _ h => h, ?_⟩
  intro e h
  have he := hwf e h
  rw [he]

theorem gpo_wf (c : Config) (s : St) (hwf : wfPreview c s) :
    wfPreview c (getPreviewOptionsSt c s).2 := by
  rw [gpo_normal c s hwf]
  intro e h
  exact (Option.some.inj h).symm

theorem gpo_replay (c : Config) (s u : St) (o : Opts) (s' : St) (hwf : wfPreview c s)
    (hrun : getPreviewOptionsSt c s = (o, s')) (hext : stExt s' u) :
    getPreviewOptionsSt c u = (o, u) := by
  rw [gpo_normal c s hwf] at hrun
  simp only [Prod.mk.injEq] at hrun
  obtain ⟨ho, hs⟩ := hrun
  have hpre : s'.preview = some (c.cfgId, mkOpts c) := by
    rw [← hs]
  have hu := hext.2.2 _ hpre
  simp only [getPreviewOptionsSt, hu, beq_self_eq_true, if_true, Prod.mk.injEq]
  exact ⟨ho, by trivial⟩

theorem condDict_ext (flag : Bool) (k : Klass) (s : St) (b : Bool) (s' : St)
    (h : (if flag then isDictionaryClassS k s else (false, s)) = (b, s')) :
    stExt s s' ∧ s'.enums = s.enums ∧ s'.preview = s.preview := by
  cases flag
  · simp only [Bool.false_eq_true, if_false, Prod.mk.injEq] at h
    rw [← h.2]
    exact ⟨stExt_refl s, rfl, rfl⟩
  · simp only [if_true] at h
    have hx := isDictionaryClassS_ext k s
    rw [h] at hx
    exact hx

theorem condDict_replay (flag : Bool) (k : Klass) (s u : St) (b : Bool) (s' : St)
    (h : (if flag then isDictionaryClassS k s else (false, s)) = (b, s'))
    (hext : stExt s' u) :
    (if flag then isDictionaryClassS k u else (false, u)) = (b, u) := by
  cases flag
  · simp only [Bool.false_eq_true, if_false, Prod.mk.injEq] at h ⊢
    exact ⟨h.1, by trivial⟩
  · simp only [if_true] at h ⊢
    exact isDictionaryClassS_replay k s u b s' h hext

theorem condList_ext (flag : Bool) (k : Klass) (s : St) (b : Bool) (s' : St)
    (h : (if flag then isListClassS k s else (false, s)) = (b, s')) :
    stExt s s' ∧ s'.enums = s.enums ∧ s'.preview = s.preview := by
  cases flag
  · simp only [Bool.false_eq_true, if_false, Prod.mk.injEq] at h
    rw [← h.2]
    exact ⟨stExt_refl s, rfl, rfl⟩
  · simp only [if_true] at h
    have hx := isListClassS_ext k s
    rw [h] at hx
    exact hx

theorem condList_replay (flag : Bool) (k : Klass) (s u : St) (b : Bool) (s' : St)
    (h : (if flag then isListClassS k s else (false, s)) = (b, s'))
    (hext : stExt s' u) :
    (if flag then isListClassS k u else (false, u)) = (b, u) := by
  cases flag
  · simp only [Bool.false_eq_true, if_false, Prod.mk.injEq] at h ⊢
    exact ⟨h.1, by trivial⟩
  · simp only [if_true] at h ⊢
    exact isListClassS_replay k s u b s' h hext

theorem multimapFieldLoop_ext (mem : Mem) (mapPtr : Nat) (opts : Opts)
    (fields : List FieldD) (s : St) :
    stExt s (multimapFieldLoop mem mapPtr opts fields s).2 ∧
    (multimapFieldLoop mem mapPtr opts fields s).2.enums = s.enums ∧
    (multimapFieldLoop mem mapPtr opts fields s).2.preview = s.preview := by
  induction fields generalizing s with
  | nil => exact ⟨stExt_refl s, rfl, rfl⟩
  | cons f rest ih =>
    simp only [multimapFieldLoop]
    by_cases hst : f.isStatic = true
    · rw [if_pos hst]
      exact ih s
    · rw [if_neg hst]
      cases hf : mem.fieldVal mapPtr f.name with
      | none => simp only []; exact ih s
      | some val =>
        cases val with
        | vnull => simp only []; exact ih s
        | vnum n => simp only []; exact ih s
        | vstr str => simp only []; exact ih s
        | vbool b => simp only []; exact ih s
        | varr l => simp only []; exact ih s
        | vptr vp =>
          simp only []
          cases ho : mem.obj vp with
          | ctorThrow => simp only []; exact ih s
          | classThrow => simp only []; exact ih s
          | ok fk =>
            simp only []
            cases hd : (if opts.expandDictionaries = true then isDictionaryClassS fk s
                else (false, s)) with
            | mk dictHit s1 =>
              simp only []
              have hx1 := condDict_ext opts.expandDictionaries fk s dictHit s1 hd
              cases hds : (if dictHit = true then
                  readDictionarySummary mem (some vp) opts.maxDictEntries else none) with
              | some summary =>
                simp only []
                exact hx1
              | none =>
                simp only []
                cases hl : (if opts.expandLists = true then isListClassS fk s1
                    else (false, s1)) with
                | mk listHit s2 =>
                  simp only []
                  have hx2 := condList_ext opts.expandLists fk s1 listHit s2 hl
                  cases hlc : (if listHit = true then readListCount mem (some vp)
                      else none) with
                  | some count =>
                    simp only []
                    exact ⟨stExt_trans hx1.1 hx2.1, by rw [hx2.2.1, hx1.2.1],
                      by rw [hx2.2.2, hx1.2.2]⟩
                  | none =>
                    simp only []
                    have hx3 := ih s2
                    exact ⟨stExt_trans (stExt_trans hx1.1 hx2.1) hx3.1,
                      by rw [hx3.2.1, hx2.2.1, hx1.2.1],
                      by rw [hx3.2.2, hx2.2.2, hx1.2.2]⟩

theorem multimapFieldLoop_replay (mem : Mem) (mapPtr : Nat) (opts : Opts)
    (fields : List FieldD) (s u : St) (v : Option String) (s' : St)
    (hrun : multimapFieldLoop mem mapPtr opts fields s = (v, s')) (hext : stExt s' u) :
    multimapFieldLoop mem mapPtr opts fields u = (v, u) := by
  induction fields generalizing s u with
  | nil =>
    simp only [multimapFieldLoop, Prod.mk.injEq] at hrun ⊢
    exact ⟨hrun.1, by trivial⟩
  | cons f rest ih =>
    simp only [multimapFieldLoop] at hrun ⊢
    by_cases hst : f.isStatic = true
    · rw [if_pos hst] at hrun ⊢
      exact ih s u hrun hext
    · rw [if_neg hst] at hrun ⊢
      cases hf : mem.fieldVal mapPtr f.name with
      | none =>
        simp only [hf] at hrun
        simp only []
        exact ih s u hrun hext
      | some val =>
        simp only [hf] at hrun
        cases val with
        | vnull => simp only [] at hrun ⊢; exact ih s u hrun hext
        | vnum n => simp only [] at hrun ⊢; exact ih s u hrun hext
        | vstr str => simp only [] at hrun ⊢; exact ih s u hrun hext
        | vbool b => simp only [] at hrun ⊢; exact ih s u hrun hext
        | varr l => simp only [] at hrun ⊢; exact ih s u hrun hext
        | vptr vp =>
          simp only [] at hrun ⊢
          cases ho : mem.obj vp with
          | ctorThrow =>
            simp only [ho] at hrun
            simp only []
            exact ih s u hrun hext
          | classThrow =>
            simp only [ho] at hrun
            simp only []
            exact ih s u hrun hext
          | ok fk =>
            simp only [ho] at hrun
            simp only []
            cases hd : (if opts.expandDictionaries = true then isDictionaryClassS fk s
                else (false, s)) with
            | mk dictHit s1 =>
              simp only [hd] at hrun
              cases hds : (if dictHit = true then
                  readDictionarySummary mem (some vp) opts.maxDictEntries else none) with
              | some summary =>
                simp only [hds, Prod.mk.injEq] at hrun
                obtain ⟨hv, hs1⟩ := hrun
                have hextu : stExt s1 u := hs1 ▸ hext
                have hrepD := condDict_replay opts.expandDictionaries fk s u dictHit s1
                  hd hextu
                simp only [hrepD, hds, Prod.mk.injEq]
                exact ⟨hv, by trivial⟩
              | none =>
                simp only [hds] at hrun
                cases hl : (if opts.expandLists = true then isListClassS fk s1
                    else (false, s1)) with
                | mk listHit s2 =>
                  simp only [hl] at hrun
                  cases hlc : (if listHit = true then readListCount mem (some vp)
                      else none) with
                  | some count =>
                    simp only [hlc, Prod.mk.injEq] at hrun
                    obtain ⟨hv, hs2⟩ := hrun
                    have hext2u : stExt s2 u := hs2 ▸ hext
                    have hext1u : stExt s1 u :=
                      stExt_trans (condList_ext opts.expandLists fk s1 listHit s2 hl).1
                        hext2u
                    have hrepD := condDict_replay opts.expandDictionaries fk s u dictHit
                      s1 hd hext1u
                    have hrepL := condList_replay opts.expandLists fk s1 u listHit s2
                      hl hext2u
                    simp only [hrepD, hds, hrepL, hlc, Prod.mk.injEq]
                    exact ⟨hv, by trivial⟩
                  | none =>
                    simp only [hlc] at hrun
                    have hextRec := multimapFieldLoop_ext mem mapPtr opts rest s2
                    have hext2u : stExt s2 u := by
                      refine stExt_trans ?_ hext
                      have hx := hextRec.1
                      rw [hrun] at hx
                      exact hx
                    have hext1u : stExt s1 u :=
                      stExt_trans (condList_ext opts.expandLists fk s1 listHit s2 hl).1
                        hext2u
                    have hrepD := condDict_replay opts.expandDictionaries fk s u dictHit
                      s1 hd hext1u
                    have hrepL := condList_replay opts.expandLists fk s1 u listHit s2
                      hl hext2u
                    have hrec := ih s2 u hrun hext
                    simp only [hrepD, hds, hrepL, hlc]
                    exact hrec

theorem readMultimapSummarySt_ext (mem : Mem) (p : Option Nat) (opts : Opts) (s : St) :
    stExt s (readMultimapSummarySt mem p opts s).2 ∧
    (readMultimapSummarySt mem p opts s).2.enums = s.enums ∧
    (readMultimapSummarySt mem p opts s).2.preview = s.preview := by
  cases p with
  | none => exact ⟨stExt_refl s, rfl, rfl⟩
  | some v =>
    by_cases hv : v = 0
    · simp only [readMultimapSummarySt, hv, if_pos]
      exact ⟨stExt_refl s, by trivial, by trivial⟩
    · simp only [readMultimapSummarySt, if_neg hv]
      cases ho : mem.obj v with
      | ok k =>
        simp only []
        exact multimapFieldLoop_ext mem v opts k.fields s
      | ctorThrow => exact ⟨stExt_refl s, by trivial, by trivial⟩
      | classThrow => exact ⟨stExt_refl s, by trivial, by trivial⟩

theorem readMultimapSummarySt_replay (mem : Mem) (p : Option Nat) (opts : Opts)
    (s u : St) (v : Option String) (s' : St)
    (hrun : readMultimapSummarySt mem p opts s = (v, s')) (hext : stExt s' u) :
    readMultimapSummarySt mem p opts u = (v, u) := by
  cases p with
  | none =>
    simp only [readMultimapSummarySt, Prod.mk.injEq] at hrun ⊢
    exact ⟨hrun.1, by trivial⟩
  | some pv =>
    by_cases hv : pv = 0
    · simp only [readMultimapSummarySt, hv, if_pos, Prod.mk.injEq] at hrun ⊢
      exact ⟨hrun.1, by trivial⟩
    · simp only [readMultimapSummarySt, if_neg hv] at hrun ⊢
      cases ho : mem.obj pv with
      | ok k =>
        simp only [ho] at hrun
        simp only []
        exact multimapFieldLoop_replay mem pv opts k.fields s u v s' hrun hext
      | ctorThrow =>
        simp only [ho, Prod.mk.injEq] at hrun
        simp only [Prod.mk.injEq]
        exact ⟨hrun.1, by trivial⟩
      | classThrow =>
        simp only [ho, Prod.mk.injEq] at hrun
        simp only [Prod.mk.injEq]
        exact ⟨hrun.1, by trivial⟩

theorem summarizeFieldValueSt_ext (mem : Mem) (value : JSVal) (typeName : String)
    (opts : Opts) (s : St) :
    stExt s (summarizeFieldValueSt mem value typeName opts s).2 ∧
    (summarizeFieldValueSt mem value typeName opts s).2.enums = s.enums ∧
    (summarizeFieldValueSt mem value typeName opts s).2.preview = s.preview := by
  have hpure : ∀ x : Option String,
      stExt s ((x, s) : Option String × St).2 ∧
      ((x, s) : Option String × St).2.enums = s.enums ∧
      ((x, s) : Option String × St).2.preview = s.preview :=
    fun _ => ⟨stExt_refl s, rfl, rfl⟩
  cases value with
  | vnull => exact hpure (some "null")
  | vnum n =>
    simp only [summarizeFieldValueSt]
    repeat' split
    all_goals exact ⟨stExt_refl s, by trivial, by trivial⟩
  | vstr str =>
    simp only [summarizeFieldValueSt]
    repeat' split
    all_goals exact ⟨stExt_refl s, by trivial, by trivial⟩
  | vbool b =>
    simp only [summarizeFieldValueSt]
    repeat' split
    all_goals exact ⟨stExt_refl s, by trivial, by trivial⟩
  | varr l =>
    simp only [summarizeFieldValueSt]
    repeat' split
    all_goals exact ⟨stExt_refl s, by trivial, by trivial⟩
  | vptr vp =>
    simp only [summarizeFieldValueSt]
    by_cases h0 : (JSVal.hasIsNull (JSVal.vptr vp) && JSVal.isPtrNull (JSVal.vptr vp))
        = true
    · rw [if_pos h0]
      exact hpure (some "null")
    · rw [if_neg h0]
      by_cases hba : isByteArrayType typeName = true
      · rw [if_pos hba]
        exact ⟨stExt_refl s, by trivial, by trivial⟩
      · rw [if_neg hba]
        by_cases har : isArrayType typeName = true
        · rw [if_pos har]
          exact ⟨stExt_refl s, by trivial, by trivial⟩
        · rw [if_neg har]
          by_cases hstr : isStringType typeName = true
          · rw [if_pos hstr]
            exact ⟨stExt_refl s, by trivial, by trivial⟩
          · rw [if_neg hstr]
            by_cases hprim : isPrimitiveName (normalizeTypeName typeName) = true
            · rw [if_pos hprim]
              exact ⟨stExt_refl s, by trivial, by trivial⟩
            · rw [if_neg hprim]
              cases ho : mem.obj vp with
              | ctorThrow => exact ⟨stExt_refl s, by trivial, by trivial⟩
              | classThrow => exact ⟨stExt_refl s, by trivial, by trivial⟩
              | ok k =>
                simp only []
                cases hd : (if opts.expandDictionaries = true then isDictionaryClassS k s
                    else (false, s)) with
                | mk bD s1 =>
                  simp only []
                  have hx1 := condDict_ext opts.expandDictionaries k s bD s1 hd
                  by_cases hbD : bD = true
                  · rw [if_pos hbD]
                    exact hx1
                  · rw [if_neg hbD]
                    by_cases hmm : (opts.expandMultimap && isMultimapClass k) = true
                    · rw [if_pos hmm]
                      cases hm : readMultimapSummarySt mem (some vp) opts s1 with
                      | mk r s2 =>
                        simp only []
                        have hx2 := readMultimapSummarySt_ext mem (some vp) opts s1
                        rw [hm] at hx2
                        exact ⟨stExt_trans hx1.1 hx2.1, by rw [hx2.2.1, hx1.2.1],
                          by rw [hx2.2.2, hx1.2.2]⟩
                    · rw [if_neg hmm]
                      cases hl : (if opts.expandLists = true then isListClassS k s1
                          else (false, s1)) with
                      | mk bL s2 =>
                        simp only []
                        have hx2 := condList_ext opts.expandLists k s1 bL s2 hl
                        have hall : stExt s s2 ∧ s2.enums = s.enums ∧
                            s2.preview = s.preview :=
                          ⟨stExt_trans hx1.1 hx2.1, by rw [hx2.2.1, hx1.2.1],
                            by rw [hx2.2.2, hx1.2.2]⟩
                        by_cases hbL : bL = true
                        · rw [if_pos hbL]
                          exact hall
                        · rw [if_neg hbL]
                          exact hall

theorem summarizeFieldValueSt_replay (mem : Mem) (value : JSVal) (typeName : String)
    (opts : Opts) (s u : St) (v : Option String) (s' : St)
    (hrun : summarizeFieldValueSt mem value typeName opts s = (v, s'))
    (hext : stExt s' u) :
    summarizeFieldValueSt mem value typeName opts u = (v, u) := by
  cases value with
  | vnull =>
    simp only [summarizeFieldValueSt, Prod.mk.injEq] at hrun ⊢
    exact ⟨hrun.1, by trivial⟩
  | vnum n =>
    simp only [summarizeFieldValueSt] at hrun ⊢
    repeat' split at hrun
    all_goals {
      simp only [Prod.mk.injEq] at hrun
      repeat' split
      all_goals simp_all }
  | vstr str =>
    simp only [summarizeFieldValueSt] at hrun ⊢
    repeat' split at hrun
    all_goals {
      simp only [Prod.mk.injEq] at hrun
      repeat' split
      all_goals simp_all }
  | vbool b =>
    simp only [summarizeFieldValueSt] at hrun ⊢
    repeat' split at hrun
    all_goals {
      simp only [Prod.mk.injEq] at hrun
      repeat' split
      all_goals simp_all }
  | varr l =>
    simp only [summarizeFieldValueSt] at hrun ⊢
    repeat' split at hrun
    all_goals {
      simp only [Prod.mk.injEq] at hrun
      repeat' split
      all_goals simp_all }
  | vptr vp =>
    simp only [summarizeFieldValueSt] at hrun ⊢
    by_cases h0 : (JSVal.hasIsNull (JSVal.vptr vp) && JSVal.isPtrNull (JSVal.vptr vp))
        = true
    · rw [if_pos h0] at hrun ⊢
      simp only [Prod.mk.injEq] at hrun ⊢
      exact ⟨hrun.1, by trivial⟩
    · rw [if_neg h0] at hrun ⊢
      by_cases hba : isByteArrayType typeName = true
      · rw [if_pos hba] at hrun ⊢
        simp only [Prod.mk.injEq] at hrun ⊢
        exact ⟨hrun.1, by trivial⟩
      · rw [if_neg hba] at hrun ⊢
        by_cases har : isArrayType typeName = true
        · rw [if_pos har] at hrun ⊢
          simp only [Prod.mk.injEq] at hrun ⊢
          exact ⟨hrun.1, by trivial⟩
        · rw [if_neg har] at hrun ⊢
          by_cases hstr : isStringType typeName = true
          · rw [if_pos hstr] at hrun ⊢
            simp only [Prod.mk.injEq] at hrun ⊢
            exact ⟨hrun.1, by trivial⟩
          · rw [if_neg hstr] at hrun ⊢
            by_cases hprim : isPrimitiveName (normalizeTypeName typeName) = true
            · rw [if_pos hprim] at hrun ⊢
              simp only [Prod.mk.injEq] at hrun ⊢
              exact ⟨hrun.1, by trivial⟩
            · rw [if_neg hprim] at hrun ⊢
              cases ho : mem.obj vp with
              | ctorThrow =>
                simp only [ho, Prod.mk.injEq] at hrun
                simp only [Prod.mk.injEq]
                exact ⟨hrun.1, by trivial⟩
              | classThrow =>
                simp only [ho, Prod.mk.injEq] at hrun
                simp only [Prod.mk.injEq]
                exact ⟨hrun.1, by trivial⟩
              | ok k =>
                simp only [ho] at hrun
                simp only []
                cases hd : (if opts.expandDictionaries = true then isDictionaryClassS k s
                    else (false, s)) with
                | mk bD s1 =>
                  simp only [hd] at hrun
                  by_cases hbD : bD = true
                  · rw [if_pos hbD] at hrun
                    simp only [Prod.mk.injEq] at hrun
                    obtain ⟨hv, hs1⟩ := hrun
                    have hextu : stExt s1 u := hs1 ▸ hext
                    have hrepD := condDict_replay opts.expandDictionaries k s u bD s1
                      hd hextu
                    simp only [hrepD, if_pos hbD, Prod.mk.injEq]
                    exact ⟨hv, by trivial⟩
                  · rw [if_neg hbD] at hrun
                    by_cases hmm : (opts.expandMultimap && isMultimapClass k) = true
                    · rw [if_pos hmm] at hrun
                      cases hm : readMultimapSummarySt mem (some vp) opts s1 with
                      | mk r s2 =>
                        simp only [hm, Prod.mk.injEq] at hrun
                        obtain ⟨hv, hs2⟩ := hrun
                        have hext2u : stExt s2 u := hs2 ▸ hext
                        have hext1u : stExt s1 u := by
                          have hx2 := readMultimapSummarySt_ext mem (some vp) opts s1
                          rw [hm] at hx2
                          exact stExt_trans hx2.1 hext2u
                        have hrepD := condDict_replay opts.expandDictionaries k s u bD s1
                          hd hext1u
                        have hrepM := readMultimapSummarySt_replay mem (some vp) opts
                          s1 u r s2 hm hext2u
                        simp only [hrepD, if_neg hbD, if_pos hmm, hrepM, Prod.mk.injEq]
                        exact ⟨hv, by trivial⟩
                    · rw [if_neg hmm] at hrun
                      cases hl : (if opts.expandLists = true then isListClassS k s1
                          else (false, s1)) with
                      | mk bL s2 =>
                        simp only [hl] at hrun
                        have hsplit : v = (if bL = true then
                            (some (match readListCount mem (some vp) with
                              | some c => "List[" ++ toString c ++ "]"
                              | none => "List")) else
                            (some (safeValueToString (JSVal.vptr vp) 100))) ∧ s2 = s' := by
                          by_cases hbL : bL = true
                          · rw [if_pos hbL] at hrun
                            simp only [Prod.mk.injEq] at hrun
                            exact ⟨by rw [if_pos hbL, hrun.1], hrun.2⟩
                          · rw [if_neg hbL] at hrun
                            simp only [Prod.mk.injEq] at hrun
                            exact ⟨by rw [if_neg hbL, hrun.1], hrun.2⟩
                        obtain ⟨hv, hs2⟩ := hsplit
                        have hext2u : stExt s2 u := hs2 ▸ hext
                        have hext1u : stExt s1 u :=
                          stExt_trans (condList_ext opts.expandLists k s1 bL s2 hl).1
                            hext2u
                        have hrepD := condDict_replay opts.expandDictionaries k s u bD s1
                          hd hext1u
                        have hrepL := condList_replay opts.expandLists k s1 u bL s2
                          hl hext2u
                        simp only [hrepD, if_neg hbD, if_neg hmm, hrepL]
                        by_cases hbL : bL = true
                        · rw [if_pos hbL]
                          rw [if_pos hbL] at hv
                          simp only [Prod.mk.injEq]
                          exact ⟨hv.symm, by trivial⟩
                        · rw [if_neg hbL]
                          rw [if_neg hbL] at hv
                          simp only [Prod.mk.injEq]
                          exact ⟨hv.symm, by trivial⟩

theorem previewFieldLoop_ext (mem : Mem) (objPtr : Nat) (fullName : String)
    (opts : Opts) (fields : List FieldD) (acc : List String) (s : St) :
    stExt s (previewFieldLoop mem objPtr fullName opts fields acc s).2 ∧
    (previewFieldLoop mem objPtr fullName opts fields acc s).2.enums = s.enums ∧
    (previewFieldLoop mem objPtr fullName opts fields acc s).2.preview = s.preview := by
  induction fields generalizing acc s with
  | nil => exact ⟨stExt_refl s, rfl, rfl⟩
  | cons f rest ih =>
    simp only [previewFieldLoop]
    by_cases hst : f.isStatic = true
    · rw [if_pos hst]
      exact ih acc s
    · rw [if_neg hst]
      by_cases hmax : opts.maxObjectFields ≤ acc.length
      · rw [if_pos hmax]
        exact ⟨stExt_refl s, rfl, rfl⟩
      · rw [if_neg hmax]
        by_cases hinc : (!shouldIncludeField fullName f.name opts) = true
        · rw [if_pos hinc]
          exact ih acc s
        · rw [if_neg hinc]
          by_cases hbuf : (isByteArrayType f.typeName && isBufferFieldName f.name) = true
          · rw [if_pos hbuf]
            exact ih (acc ++ [f.name ++ "=[buffer]"]) s
          · rw [if_neg hbuf]
            by_cases har : isArrayType f.typeName = true
            · rw [if_pos har]
              exact ih _ s
            · rw [if_neg har]
              cases hf : mem.fieldVal objPtr f.name with
              | none => exact ih acc s
              | some v =>
                simp only []
                cases hsum : summarizeFieldValueSt mem v f.typeName opts s with
                | mk summ s1 =>
                  simp only []
                  have hx1 := summarizeFieldValueSt_ext mem v f.typeName opts s
                  rw [hsum] at hx1
                  cases summ with
                  | none =>
                    have hx2 := ih acc s1
                    exact ⟨stExt_trans hx1.1 hx2.1, by rw [hx2.2.1, hx1.2.1],
                      by rw [hx2.2.2, hx1.2.2]⟩
                  | some txt =>
                    have hx2 := ih (acc ++ [f.name ++ "=" ++ txt]) s1
                    exact ⟨stExt_trans hx1.1 hx2.1, by rw [hx2.2.1, hx1.2.1],
                      by rw [hx2.2.2, hx1.2.2]⟩

theorem previewFieldLoop_replay (mem : Mem) (objPtr : Nat) (fullName : String)
    (opts : Opts) (fields : List FieldD) (acc : List String) (s u : St)
    (v : List String) (s' : St)
    (hrun : previewFieldLoop mem objPtr fullName opts fields acc s = (v, s'))
    (hext : stExt s' u) :
    previewFieldLoop mem objPtr fullName opts fields acc u = (v, u) := by
  induction fields generalizing acc s u with
  | nil =>
    simp only [previewFieldLoop, Prod.mk.injEq] at hrun ⊢
    exact ⟨hrun.1, by trivial⟩
  | cons f rest ih =>
    simp only [previewFieldLoop] at hrun ⊢
    by_cases hst : f.isStatic = true
    · rw [if_pos hst] at hrun ⊢
      exact ih acc s u hrun hext
    · rw [if_neg hst] at hrun ⊢
      by_cases hmax : opts.maxObjectFields ≤ acc.length
      · rw [if_pos hmax] at hrun ⊢
        simp only [Prod.mk.injEq] at hrun ⊢
        exact ⟨hrun.1, by trivial⟩
      · rw [if_neg hmax] at hrun ⊢
        by_cases hinc : (!shouldIncludeField fullName f.name opts) = true
        · rw [if_pos hinc] at hrun ⊢
          exact ih acc s u hrun hext
        · rw [if_neg hinc] at hrun ⊢
          by_cases hbuf : (isByteArrayType f.typeName && isBufferFieldName f.name) = true
          · rw [if_pos hbuf] at hrun ⊢
            exact ih (acc ++ [f.name ++ "=[buffer]"]) s u hrun hext
          · rw [if_neg hbuf] at hrun ⊢
            by_cases har : isArrayType f.typeName = true
            · rw [if_pos har] at hrun ⊢
              exact ih _ s u hrun hext
            · rw [if_neg har] at hrun ⊢
              cases hf : mem.fieldVal objPtr f.name with
              | none =>
                simp only [hf] at hrun
                simp only []
                exact ih acc s u hrun hext
              | some fv =>
                simp only [hf] at hrun
                simp only []
                cases hsum : summarizeFieldValueSt mem fv f.typeName opts s with
                | mk summ s1 =>
                  simp only [hsum] at hrun
                  cases summ with
                  | none =>
                    simp only [] at hrun
                    have hext1u : stExt s1 u := by
                      have hx2 := previewFieldLoop_ext mem objPtr fullName opts rest
                        acc s1
                      rw [hrun] at hx2
                      exact stExt_trans hx2.1 hext
                    have hrepS := summarizeFieldValueSt_replay mem fv f.typeName opts
                      s u none s1 hsum hext1u
                    simp only [hrepS]
                    exact ih acc s1 u hrun hext
                  | some txt =>
                    simp only [] at hrun
                    have hext1u : stExt s1 u := by
                      have hx2 := previewFieldLoop_ext mem objPtr fullName opts rest
                        (acc ++ [f.name ++ "=" ++ txt]) s1
                      rw [hrun] at hx2
                      exact stExt_trans hx2.1 hext
                    have hrepS := summarizeFieldValueSt_replay mem fv f.typeName opts
                      s u (some txt) s1 hsum hext1u
                    simp only [hrepS]
                    exact ih (acc ++ [f.name ++ "=" ++ txt]) s1 u hrun hext

theorem previewObjectSt_ext (mem : Mem) (p : Option Nat) (opts : Opts) (s : St) :
    stExt s (previewObjectSt mem p opts s).2 ∧
    (previewObjectSt mem p opts s).2.enums = s.enums ∧
    (previewObjectSt mem p opts s).2.preview = s.preview := by
  cases p with
  | none => exact ⟨stExt_refl s, rfl, rfl⟩
  | some v =>
    simp only [previewObjectSt]
    by_cases hv : v = 0
    · rw [if_pos hv]
      exact ⟨stExt_refl s, rfl, rfl⟩
    · rw [if_neg hv]
      cases ho : mem.obj v with
      | ctorThrow => exact ⟨stExt_refl s, by trivial, by trivial⟩
      | classThrow => exact ⟨stExt_refl s, by trivial, by trivial⟩
      | ok k =>
        simp only []
        by_cases hstr : isStringType (if k.ns ≠ "" then k.ns ++ "." ++ k.name
            else k.name) = true
        · rw [if_pos hstr]
          exact ⟨stExt_refl s, by trivial, by trivial⟩
        · rw [if_neg hstr]
          cases hd : (if opts.expandDictionaries = true then isDictionaryClassS k s
              else (false, s)) with
          | mk bD s1 =>
            simp only []
            have hx1 := condDict_ext opts.expandDictionaries k s bD s1 hd
            by_cases hbD : bD = true
            · rw [if_pos hbD]
              exact hx1
            · rw [if_neg hbD]
              by_cases hmm : (opts.expandMultimap && isMultimapClass k) = true
              · rw [if_pos hmm]
                cases hm : readMultimapSummarySt mem (some v) opts s1 with
                | mk r s2 =>
                  simp only []
                  have hx2 := readMultimapSummarySt_ext mem (some v) opts s1
                  rw [hm] at hx2
                  exact ⟨stExt_trans hx1.1 hx2.1, by rw [hx2.2.1, hx1.2.1],
                    by rw [hx2.2.2, hx1.2.2]⟩
              · rw [if_neg hmm]
                cases hl : (if opts.expandLists = true then isListClassS k s1
                    else (false, s1)) with
                | mk bL s2 =>
                  simp only []
                  have hx2 := condList_ext opts.expandLists k s1 bL s2 hl
                  have hall12 : stExt s s2 ∧ s2.enums = s.enums ∧
                      s2.preview = s.preview :=
                    ⟨stExt_trans hx1.1 hx2.1, by rw [hx2.2.1, hx1.2.1],
                      by rw [hx2.2.2, hx1.2.2]⟩
                  by_cases hbL : bL = true
                  · rw [if_pos hbL]
                    exact hall12
                  · rw [if_neg hbL]
                    by_cases hpv : (!opts.previewObjects) = true
                    · rw [if_pos hpv]
                      exact hall12
                    · rw [if_neg hpv]
                      cases hfl : previewFieldLoop mem v (if k.ns ≠ "" then
                          k.ns ++ "." ++ k.name else k.name) opts k.fields [] s2 with
                      | mk fieldsL s3 =>
                        simp only []
                        have hx3 := previewFieldLoop_ext mem v (if k.ns ≠ "" then
                          k.ns ++ "." ++ k.name else k.name) opts k.fields [] s2
                        rw [hfl] at hx3
                        exact ⟨stExt_trans hall12.1 hx3.1,
                          by rw [hx3.2.1, hall12.2.1],
                          by rw [hx3.2.2, hall12.2.2]⟩

theorem previewObjectSt_replay (mem : Mem) (p : Option Nat) (opts : Opts) (s u : St)
    (v : String) (s' : St)
    (hrun : previewObjectSt mem p opts s = (v, s')) (hext : stExt s' u) :
    previewObjectSt mem p opts u = (v, u) := by
  cases p with
  | none =>
    simp only [previewObjectSt, Prod.mk.injEq] at hrun ⊢
    exact ⟨hrun.1, by trivial⟩
  | some pv =>
    simp only [previewObjectSt] at hrun ⊢
    by_cases hv : pv = 0
    · rw [if_pos hv] at hrun ⊢
      simp only [Prod.mk.injEq] at hrun ⊢
      exact ⟨hrun.1, by trivial⟩
    · rw [if_neg hv] at hrun ⊢
      cases ho : mem.obj pv with
      | ctorThrow =>
        simp only [ho, Prod.mk.injEq] at hrun
        simp only [Prod.mk.injEq]
        exact ⟨hrun.1, by trivial⟩
      | classThrow =>
        simp only [ho, Prod.mk.injEq] at hrun
        simp only [Prod.mk.injEq]
        exact ⟨hrun.1, by trivial⟩
      | ok k =>
        simp only [ho] at hrun
        simp only []
        by_cases hstr : isStringType (if k.ns ≠ "" then k.ns ++ "." ++ k.name
            else k.name) = true
        · rw [if_pos hstr] at hrun ⊢
          simp only [Prod.mk.injEq] at hrun ⊢
          exact ⟨hrun.1, by trivial⟩
        · rw [if_neg hstr] at hrun ⊢
          cases hd : (if opts.expandDictionaries = true then isDictionaryClassS k s
              else (false, s)) with
          | mk bD s1 =>
            simp only [hd] at hrun
            by_cases hbD : bD = true
            · rw [if_pos hbD] at hrun
              simp only [Prod.mk.injEq] at hrun
              obtain ⟨hval, hs1⟩ := hrun
              have hextu : stExt s1 u := hs1 ▸ hext
              have hrepD := condDict_replay opts.expandDictionaries k s u bD s1 hd hextu
              simp only [hrepD, if_pos hbD, Prod.mk.injEq]
              exact ⟨hval, by trivial⟩
            · rw [if_neg hbD] at hrun
              by_cases hmm : (opts.expandMultimap && isMultimapClass k) = true
              · rw [if_pos hmm] at hrun
                cases hm : readMultimapSummarySt mem (some pv) opts s1 with
                | mk r s2 =>
                  simp only [hm, Prod.mk.injEq] at hrun
                  obtain ⟨hval, hs2⟩ := hrun
                  have hext2u : stExt s2 u := hs2 ▸ hext
                  have hext1u : stExt s1 u := by
                    have hx2 := readMultimapSummarySt_ext mem (some pv) opts s1
                    rw [hm] at hx2
                    exact stExt_trans hx2.1 hext2u
                  have hrepD := condDict_replay opts.expandDictionaries k s u bD s1
                    hd hext1u
                  have hrepM := readMultimapSummarySt_replay mem (some pv) opts s1 u
                    r s2 hm hext2u
                  simp only [hrepD, if_neg hbD, if_pos hmm, hrepM, Prod.mk.injEq]
                  exact ⟨hval, by trivial⟩
              · rw [if_neg hmm] at hrun
                cases hl : (if opts.expandLists = true then isListClassS k s1
                    else (false, s1)) with
                | mk bL s2 =>
                  simp only [hl] at hrun
                  by_cases hbL : bL = true
                  · rw [if_pos hbL] at hrun
                    simp only [Prod.mk.injEq] at hrun
                    obtain ⟨hval, hs2⟩ := hrun
                    have hext2u : stExt s2 u := hs2 ▸ hext
                    have hext1u : stExt s1 u :=
                      stExt_trans (condList_ext opts.expandLists k s1 bL s2 hl).1 hext2u
                    have hrepD := condDict_replay opts.expandDictionaries k s u bD s1
                      hd hext1u
                    have hrepL := condList_replay opts.expandLists k s1 u bL s2 hl hext2u
                    simp only [hrepD, if_neg hbD, if_neg hmm, hrepL, if_pos hbL,
                      Prod.mk.injEq]
                    exact ⟨hval, by trivial⟩
                  · rw [if_neg hbL] at hrun
                    by_cases hpv : (!opts.previewObjects) = true
                    · rw [if_pos hpv] at hrun
                      simp only [Prod.mk.injEq] at hrun
                      obtain ⟨hval, hs2⟩ := hrun
                      have hext2u : stExt s2 u := hs2 ▸ hext
                      have hext1u : stExt s1 u :=
                        stExt_trans (condList_ext opts.expandLists k s1 bL s2 hl).1
                          hext2u
                      have hrepD := condDict_replay opts.expandDictionaries k s u bD s1
                        hd hext1u
                      have hrepL := condList_replay opts.expandLists k s1 u bL s2 hl
                        hext2u
                      simp only [hrepD, if_neg hbD, if_neg hmm, hrepL, if_neg hbL,
                        if_pos hpv, Prod.mk.injEq]
                      exact ⟨hval, by trivial⟩
                    · rw [if_neg hpv] at hrun
                      cases hfl : previewFieldLoop mem pv (if k.ns ≠ "" then
                          k.ns ++ "." ++ k.name else k.name) opts k.fields [] s2 with
                      | mk fieldsL s3 =>
                        simp only [hfl, Prod.mk.injEq] at hrun
                        obtain ⟨hval, hs3⟩ := hrun
                        have hext3u : stExt s3 u := hs3 ▸ hext
                        have hext2u : stExt s2 u := by
                          have hx3 := previewFieldLoop_ext mem pv (if k.ns ≠ "" then
                            k.ns ++ "." ++ k.name else k.name) opts k.fields [] s2
                          rw [hfl] at hx3
                          exact stExt_trans hx3.1 hext3u
                        have hext1u : stExt s1 u :=
                          stExt_trans (condList_ext opts.expandLists k s1 bL s2 hl).1
                            hext2u
                        have hrepD := condDict_replay opts.expandDictionaries k s u bD
                          s1 hd hext1u
                        have hrepL := condList_replay opts.expandLists k s1 u bL s2 hl
                          hext2u
                        have hrepF := previewFieldLoop_replay mem pv (if k.ns ≠ "" then
                          k.ns ++ "." ++ k.name else k.name) opts k.fields [] s2 u
                          fieldsL s3 hfl hext3u
                        simp only [hrepD, if_neg hbD, if_neg hmm, hrepL, if_neg hbL,
                          if_neg hpv, hrepF, Prod.mk.injEq]
                        exact ⟨hval, by trivial⟩

theorem formatArgSt_replay (mem : Mem) (config : Config) (argPtr : Option Nat)
    (typeName : String) (maxStrLen : Nat) (ty : Option TypeRef) (s u : St) (v : String)
    (s' : St) (hwf : wfPreview config s)
    (hrun : formatArgSt mem config argPtr typeName maxStrLen ty s = (v, s'))
    (hext : stExt s' u) :
    formatArgSt mem config argPtr typeName maxStrLen ty u = (v, u) := by
  cases argPtr with
  | none =>
    simp only [formatArgSt, Prod.mk.injEq] at hrun ⊢
    exact ⟨hrun.1, by trivial⟩
  | some pv =>
    simp only [formatArgSt] at hrun ⊢
    by_cases hbr : isByRefType typeName = true
    · rw [if_pos hbr] at hrun ⊢
      simp only [Prod.mk.injEq] at hrun ⊢
      exact ⟨hrun.1, by trivial⟩
    · rw [if_neg hbr] at hrun ⊢
      cases he : formatEnumValueSt ty (some pv) config.numbers s with
      | mk enumVal s1 =>
        simp only [he] at hrun
        have hpe := formatEnumValueSt_ext ty (some pv) config.numbers s
        rw [he] at hpe
        cases enumVal with
        | some e =>
          simp only [Prod.mk.injEq] at hrun
          obtain ⟨hval, hs1⟩ := hrun
          have hext1u : stExt s1 u := hs1 ▸ hext
          have hrepE := formatEnumValueSt_replay ty (some pv) config.numbers s u
            (some e) s1 he hext1u
          simp only [hrepE, Prod.mk.injEq]
          exact ⟨hval, by trivial⟩
        | none =>
          simp only [] at hrun
          by_cases hba : isByteArrayType typeName = true
          · rw [if_pos hba] at hrun
            simp only [Prod.mk.injEq] at hrun
            obtain ⟨hval, hs1⟩ := hrun
            have hext1u : stExt s1 u := hs1 ▸ hext
            have hrepE := formatEnumValueSt_replay ty (some pv) config.numbers s u
              none s1 he hext1u
            simp only [hrepE, if_pos hba, Prod.mk.injEq]
            exact ⟨hval, by trivial⟩
          · rw [if_neg hba] at hrun
            by_cases har : isArrayType typeName = true
            · rw [if_pos har] at hrun
              simp only [Prod.mk.injEq] at hrun
              obtain ⟨hval, hs1⟩ := hrun
              have hext1u : stExt s1 u := hs1 ▸ hext
              have hrepE := formatEnumValueSt_replay ty (some pv) config.numbers s u
                none s1 he hext1u
              simp only [hrepE, if_neg hba, if_pos har, Prod.mk.injEq]
              exact ⟨hval, by trivial⟩
            · rw [if_neg har] at hrun
              by_cases hstr : isStringType typeName = true
              · rw [if_pos hstr] at hrun
                simp only [Prod.mk.injEq] at hrun
                obtain ⟨hval, hs1⟩ := hrun
                have hext1u : stExt s1 u := hs1 ▸ hext
                have hrepE := formatEnumValueSt_replay ty (some pv) config.numbers s u
                  none s1 he hext1u
                simp only [hrepE, if_neg hba, if_neg har, if_pos hstr, Prod.mk.injEq]
                exact ⟨hval, by trivial⟩
              · rw [if_neg hstr] at hrun
                by_cases hprim : isPrimitiveName (normalizeTypeName typeName) = true
                · rw [if_pos hprim] at hrun
                  simp only [Prod.mk.injEq] at hrun
                  obtain ⟨hval, hs1⟩ := hrun
                  have hext1u : stExt s1 u := hs1 ▸ hext
                  have hrepE := formatEnumValueSt_replay ty (some pv) config.numbers s u
                    none s1 he hext1u
                  simp only [hrepE, if_neg hba, if_neg har, if_neg hstr, if_pos hprim,
                    Prod.mk.injEq]
                  exact ⟨hval, by trivial⟩
                · rw [if_neg hprim] at hrun
                  by_cases hz : pv = 0
                  · rw [if_pos hz] at hrun
                    simp only [Prod.mk.injEq] at hrun
                    obtain ⟨hval, hs1⟩ := hrun
                    have hext1u : stExt s1 u := hs1 ▸ hext
                    have hrepE := formatEnumValueSt_replay ty (some pv) config.numbers
                      s u none s1 he hext1u
                    simp only [hrepE, if_neg hba, if_neg har, if_neg hstr, if_neg hprim,
                      if_pos hz, Prod.mk.injEq]
                    exact ⟨hval, by trivial⟩
                  · rw [if_neg hz] at hrun
                    have hwf1 : wfPreview config s1 := by
                      intro e hh
                      apply hwf
                      rw [← hpe.2.2]
                      exact hh
                    cases hg : getPreviewOptionsSt config s1 with
                    | mk opts s2 =>
                      simp only [hg] at hrun
                      cases hpo : previewObjectSt mem (some pv) opts s2 with
                      | mk val s3 =>
                        simp only [hpo, Prod.mk.injEq] at hrun
                        obtain ⟨hval, hs3⟩ := hrun
                        have hext3u : stExt s3 u := hs3 ▸ hext
                        have hext2u : stExt s2 u := by
                          have hx := previewObjectSt_ext mem (some pv) opts s2
                          rw [hpo] at hx
                          exact stExt_trans hx.1 hext3u
                        have hext1u : stExt s1 u := by
                          have hx := gpo_ext config s1 hwf1
                          rw [hg] at hx
                          exact stExt_trans hx hext2u
                        have hrepE := formatEnumValueSt_replay ty (some pv)
                          config.numbers s u none s1 he hext1u
                        have hrepG := gpo_replay config s1 u opts s2 hwf1 hg hext2u
                        have hrepP := previewObjectSt_replay mem (some pv) opts s2 u
                          val s3 hpo hext3u
                        simp only [hrepE, if_neg hba, if_neg har, if_neg hstr,
                          if_neg hprim, if_neg hz, hrepG, hrepP, Prod.mk.injEq]
                        exact ⟨hval, by trivial⟩

/-- C8: decode is idempotent on an unchanged memory snapshot: a second `formatArg` call
with the same pointer, type name and configuration returns exactly the same text and
leaves the module state (classification cache, enum-literal cache, memoized preview
options) unchanged, even though the first call may have populated those caches.  The
hypothesis says the preview-options slot, if already occupied, belongs to the
configuration in use (true of every state reachable from a fresh session). -/
theorem c8_decode_idempotent (mem : Mem) (config : Config) (argPtr : Option Nat)
    (typeName : String) (maxStrLen : Nat) (ty : Option TypeRef) (s : St)
    (hwf : wfPreview config s) :
    formatArgSt mem config argPtr typeName maxStrLen ty
      ((formatArgSt mem config argPtr typeName maxStrLen ty s).2) =
    formatArgSt mem config argPtr typeName maxStrLen ty s := by
  cases h : formatArgSt mem config argPtr typeName maxStrLen ty s with
  | mk v s' =>
    exact formatArgSt_replay mem config argPtr typeName maxStrLen ty s s' v s' hwf h
      (stExt_refl s')

/-- C8 witness: decoding a `List`1` object pointer twice from a fresh session returns the
identical text and fixed caches (the first call populates the classification cache and
the preview-options slot; the second call replays them). -/
theorem c8_witness :
    formatArgSt memList cfg0 (some 4096) "System.Collections.Generic.List`1" 200 none
      ((formatArgSt memList cfg0 (some 4096) "System.Collections.Generic.List`1" 200
        none emptySt).2) =
    formatArgSt memList cfg0 (some 4096) "System.Collections.Generic.List`1" 200 none
      emptySt :=
  c8_decode_idempotent memList cfg0 (some 4096) "System.Collections.Generic.List`1" 200
    none emptySt (by intro e h; simp [emptySt] at h)

end FridaToolkit
